import Mathlib

/-!
Verification of the ZCleaner scan engine (src/src/core/scan_engine.py).

The engine is embedded shallowly:

* File-system *structure* (what `os.walk` enumerates) is a directory tree
  `DTree`; a missing or non-directory scan root is `Option.none`, matching
  `os.walk`, which silently yields nothing for such a root (its default
  `onerror=None` swallows the error).
* Per-file metadata (what `os.path.getsize` and `open(...).read()` observe)
  is a finite association list `FS` from paths to `FileEnt` (stat size and
  byte content).  Because the file system can change while the engine runs
  (files deleted or made unreadable between stages), every stat/read
  consults a time-indexed view `World : Nat → FS`.
* The shared cancellation flag `self.cancelled` is polled, never pushed.
  Its evolution after the reset at the top of `scan_folder` is a trace
  `CancelTrace : Nat → Bool`.  A single logical clock is threaded through
  the engine: each poll of the flag reads the trace at the current clock
  and advances it; stat/read operations consult the world at the current
  clock.  Progress reporting (`_update_progress`) is write-only I/O with no
  effect on any result and is not modelled; wall-clock `scan_time` is
  likewise not modelled and is always 0 here.
* `zlib.crc32` and `hashlib.md5` are external library functions; they are
  parameters (`Hashes`) of the embedding, applied to the file content read
  from the world.
-/

namespace ZC

abbrev Path := String

/-- Stat size and readable content of one file, as the OS reports them. -/
structure FileEnt where
  size : Nat
  content : String
deriving DecidableEq

/-- A snapshot of per-file metadata: path → (size, content). -/
abbrev FS := List (Path × FileEnt)

/-- Time-indexed file metadata: the view each stat/read observes. -/
abbrev World := Nat → FS

/-- The cancellation flag value observed by each successive poll. -/
abbrev CancelTrace := Nat → Bool

/-- The external hash functions used by the engine (zlib.crc32, hashlib.md5),
abstracted over the byte content they are fed. -/
structure Hashes where
  crc32 : String → Nat
  md5 : String → String

/-- Directory tree: the structure `os.walk` enumerates.  Each node carries
the file names directly inside it and its named subdirectories in order. -/
inductive DTree where
  | node (files : List String) (subs : List (String × DTree))

/-- self.skip_folders from ScanEngine.__init__. -/
def skip_folders : List String :=
  ["Windows", "Program Files", "ProgramData", "AppData",
   "$Recycle.Bin", "System Volume Information"]

/-- self.image_exts. -/
def image_exts : List String :=
  [".jpg", ".jpeg", ".png", ".webp", ".bmp", ".tiff", ".gif"]

/-- self.video_exts. -/
def video_exts : List String :=
  [".mp4", ".mov", ".avi", ".mkv", ".wmv", ".flv", ".webm"]

/-- self.document_exts. -/
def document_exts : List String :=
  [".pdf", ".doc", ".docx", ".txt", ".rtf", ".odt"]

/-- self.allowed_exts: union of the three category sets. -/
def allowed_exts : List String := image_exts ++ video_exts ++ document_exts

/-- os.path.basename: everything after the last slash. -/
def osBasename (p : String) : String :=
  String.mk ((p.toList.reverse.takeWhile (fun c => c ≠ '/')).reverse)

/-- Characters from the last dot (inclusive) of a name, if any. -/
def fromLastDot : List Char → Option (List Char)
  | [] => none
  | c :: rest =>
    match fromLastDot rest with
    | some s => some s
    | none => if c = '.' then some (c :: rest) else none

/-- pathlib.PurePath(p).suffix: the extension of the final component,
empty when the last dot is the first character of the name or its last. -/
def path_suffix (p : String) : String :=
  let name := (osBasename p).toList
  match fromLastDot name with
  | none => ""
  | some s =>
    if s.length = name.length ∨ s.length < 2 then "" else String.mk s

/-- os.path.splitext on a base name: split at the last dot unless every
character before it is itself a dot. -/
def splitext (b : String) : String × String :=
  let cs := b.toList
  match fromLastDot cs with
  | none => (b, "")
  | some s =>
    let stem := cs.take (cs.length - s.length)
    if stem.all (fun c => c = '.') then (b, "") else (String.mk stem, String.mk s)

/-- str.lower() on the ASCII extension strings the engine compares. -/
def strLower (s : String) : String :=
  String.mk (s.toList.map Char.toLower)

/-- Dictionary/OS lookup of a path in a metadata snapshot. -/
def fsFind (fs : FS) (p : Path) : Option FileEnt :=
  match fs with
  | [] => none
  | e :: rest => if e.1 = p then some e.2 else fsFind rest p

/-- ScanEngine._should_skip_folder: basename membership in the skip set. -/
def should_skip_folder (folder_path : String) : Bool :=
  osBasename folder_path ∈ skip_folders

mutual
/-- The sequence of (dirpath, filenames) triples the os.walk loop of
discover_files actually processes: a skipped directory still yields its own
triple (the loop body runs and `continue`s) but `dirs.clear()` prevents
descending into it, so none of its descendants appear. -/
def walkPrunedAt (dp : String) : DTree → List (String × List String)
  | DTree.node fs subs =>
    (dp, fs) :: (if should_skip_folder dp then [] else walkPrunedSubs dp subs)

/-- Walk continuation over the named subdirectories, in order. -/
def walkPrunedSubs (dp : String) : List (String × DTree) → List (String × List String)
  | [] => []
  | (n, t) :: rest => walkPrunedAt (dp ++ "/" ++ n) t ++ walkPrunedSubs dp rest
end

/-- First pass of discover_files (lines 99-104): counts file entries to set
a progress denominator.  The count only feeds progress messages and has no
effect on any result. -/
def count_items (dp : String) (t : DTree) : Nat :=
  ((walkPrunedAt dp t).map
    (fun r => if should_skip_folder r.1 then 0 else r.2.length)).foldl (· + ·) 0

/-- ScanEngine._is_valid_file: extension allow-list (case-insensitive),
then the 2000 MB stat-size cap; a stat failure means `return False`. -/
def is_valid_file (fs : FS) (p : Path) : Bool :=
  if strLower (path_suffix p) ∈ allowed_exts then
    match fsFind fs p with
    | none => false
    | some e => decide (e.size ≤ 2000 * 1024 * 1024)
  else false

/-- Inner loop of discover_files over one directory's file names: a poll of
the cancellation flag per file (line 116), then the validity filter. -/
def fileLoop (c : CancelTrace) (w : World) (dp : String) :
    List String → Nat → List Path → List Path × Nat
  | [], k, acc => (acc, k)
  | n :: rest, k, acc =>
    if c k then (acc, k + 1)
    else
      let p := dp ++ "/" ++ n
      if is_valid_file (w (k + 1)) p then fileLoop c w dp rest (k + 1) (acc ++ [p])
      else fileLoop c w dp rest (k + 1) acc

/-- Outer loop of discover_files over the walk triples: a poll per triple
(line 108), the skip check, then the per-file inner loop. -/
def discTriples (c : CancelTrace) (w : World) :
    List (String × List String) → Nat → List Path → List Path × Nat
  | [], k, acc => (acc, k)
  | (dp, fns) :: rest, k, acc =>
    if c k then (acc, k + 1)
    else if should_skip_folder dp then discTriples c w rest (k + 1) acc
    else
      let r := fileLoop c w dp fns (k + 1) acc
      discTriples c w rest r.2 r.1

/-- ScanEngine.discover_files.  A missing or non-directory root is `none`:
os.walk then yields no triples and the function returns the empty list
without raising. -/
def discover_files (c : CancelTrace) (w : World) (rootPath : String)
    (root : Option DTree) (k : Nat) : List Path × Nat :=
  match root with
  | none => ([], k)
  | some t => discTriples c w (walkPrunedAt rootPath t) k []

/-- defaultdict(list) update: append to the order-preserved group of a key,
creating the key at the end on first use. -/
def upsert {κ α : Type} [DecidableEq κ] :
    List (κ × List α) → κ → α → List (κ × List α)
  | [], k, v => [(k, [v])]
  | (k2, vs) :: rest, k, v =>
    if k = k2 then (k2, vs ++ [v]) :: rest else (k2, vs) :: upsert rest k v

/-- The group stored under a key (empty when the key is absent). -/
def lookupG {κ α : Type} [DecidableEq κ] (k : κ) : List (κ × List α) → List α
  | [] => []
  | (k2, vs) :: rest => if k = k2 then vs else lookupG k rest

/-- A grouping fold: classify each item by an optional key (None items are
dropped, as the engine drops files whose hash failed) and append its value
to that key's group. -/
def groupFoldV {κ α β : Type} [DecidableEq κ] (keyOf : α → Option κ)
    (val : α → β) (xs : List α) (acc : List (κ × List β)) : List (κ × List β) :=
  xs.foldl
    (fun gs x =>
      match keyOf x with
      | none => gs
      | some k => upsert gs k (val x)) acc

/-- ScanEngine._group_by_size: a poll per file (line 156); a stat failure
excludes that file (`continue`). -/
def group_by_size (c : CancelTrace) (w : World) :
    List Path → Nat → List (Nat × List Path) → List (Nat × List Path) × Nat
  | [], k, acc => (acc, k)
  | p :: rest, k, acc =>
    if c k then (acc, k + 1)
    else
      match fsFind (w (k + 1)) p with
      | none => group_by_size c w rest (k + 1) acc
      | some e => group_by_size c w rest (k + 1) (upsert acc e.size p)

/-- ScanEngine._crc32_hash: read the file and apply zlib.crc32, masked to
32 bits; a read failure is None. -/
def crc32_hash (H : Hashes) (fs : FS) (p : Path) : Option Nat :=
  (fsFind fs p).map (fun e => H.crc32 e.content % 4294967296)

/-- ScanEngine._md5_hash: read the file and apply hashlib.md5; a read
failure is None. -/
def md5_hash (H : Hashes) (fs : FS) (p : Path) : Option String :=
  (fsFind fs p).map (fun e => H.md5 e.content)

/-- Inner loop of the CRC pass over one size bucket (lines 184-187):
files whose CRC32 read failed are dropped; the rest are appended to the
(size, crc) group. -/
def crc_fold (H : Hashes) (fs : FS) (sz : Nat) (fl : List Path)
    (acc : List ((Nat × Nat) × List Path)) : List ((Nat × Nat) × List Path) :=
  groupFoldV (fun p => (crc32_hash H fs p).map (fun h => (sz, h))) (fun p => p) fl acc

/-- CRC pass of _hash_files (lines 178-187): a poll per size bucket
(line 179); singleton buckets are skipped before hashing. -/
def crc_pass (H : Hashes) (c : CancelTrace) (w : World) :
    List (Nat × List Path) → Nat → List ((Nat × Nat) × List Path) →
    List ((Nat × Nat) × List Path) × Nat
  | [], k, acc => (acc, k)
  | (sz, fl) :: rest, k, acc =>
    if c k then (acc, k + 1)
    else if fl.length < 2 then crc_pass H c w rest (k + 1) acc
    else crc_pass H c w rest (k + 1) (crc_fold H (w (k + 1)) sz fl acc)

/-- Submission loop of _hash_files (lines 196-200): a poll per promoted
group (line 197); every file of every remaining group is submitted to the
pool, in group order then in-group order. -/
def submit_loop (c : CancelTrace) :
    List (List Path) → Nat → List Path → List Path × Nat
  | [], k, acc => (acc, k)
  | g :: rest, k, acc =>
    if c k then (acc, k + 1) else submit_loop c rest (k + 1) (acc ++ g)

/-- Collection loop of _hash_files (lines 202-213): futures are consumed by
iterating the futures dict in submission order, a poll per future
(line 203); `future.result()` blocks until that future's own value is
ready, so the value appended is the file's MD5 digest no matter when the
worker finished.  Line 207 `if hash_value:` drops both a failed read (None)
and a falsy empty digest. -/
def collect_loop (H : Hashes) (c : CancelTrace) (w : World) :
    List Path → Nat → List (String × List Path) → List (String × List Path) × Nat
  | [], k, acc => (acc, k)
  | p :: rest, k, acc =>
    if c k then (acc, k + 1)
    else
      match md5_hash H (w (k + 1)) p with
      | none => collect_loop H c w rest (k + 1) acc
      | some d =>
        if d = "" then collect_loop H c w rest (k + 1) acc
        else collect_loop H c w rest (k + 1) (upsert acc d p)

/-- ScanEngine._hash_files: size grouping, CRC32 filter over multi-member
size buckets, promotion of multi-member CRC groups, then the concurrent
MD5 stage.  Final groups are keyed by MD5 digest alone. -/
def hash_files (H : Hashes) (c : CancelTrace) (w : World) (files : List Path)
    (k : Nat) : List (String × List Path) × Nat :=
  let sg := group_by_size c w files k []
  let cg := crc_pass H c w sg.1 sg.2 []
  let pot := (cg.1.map (fun kv => kv.2)).filter (fun g => 1 < g.length)
  let sub := submit_loop c pot cg.2 []
  collect_loop H c w sub.1 sub.2 []

/-- Results from a scan operation (dataclass ScanResult).  `scan_time` is
wall-clock time, not modelled, hence always 0 here. -/
structure ScanResult where
  total_files : Nat
  total_size : Nat
  duplicates : List (List Path)
  scan_time : Nat
  space_saved : Nat
deriving DecidableEq

/-- Python's sum(os.path.getsize(f) for f in ...): None when any single
stat fails, because the unprotected OSError aborts the whole sum. -/
def sum_sizes (fs : FS) (ps : List Path) : Option Nat :=
  ps.foldl
    (fun acc p =>
      match acc, fsFind fs p with
      | some n, some e => some (n + e.size)
      | _, _ => none) (some 0)

/-- The space_saved computation of scan_folder (lines 242-245): the sum of
the stat sizes of every non-index-0 member of every duplicate group. -/
def space_calc (fs : FS) (groups : List (List Path)) : Option Nat :=
  groups.foldl
    (fun acc g =>
      match acc, sum_sizes fs g.tail with
      | some n, some m => some (n + m)
      | _, _ => none) (some 0)

/-- ScanEngine.scan_folder.  `preCancelled` is the value of self.cancelled
at entry; line 220 (`self.cancelled = False`) discards it, and the trace
`c` describes the flag after that reset.  Checkpoint polls at lines 227 and
233 return the constant ScanResult(0, 0, [], 0); the statistics pass
(lines 241-245) stats every discovered file with no per-file handler, and
the handler at line 258 re-raises, so one failing stat raises out of the
whole call. -/
def scan_folder (H : Hashes) (preCancelled : Bool) (c : CancelTrace) (w : World)
    (rootPath : String) (root : Option DTree) : Except String ScanResult :=
  let _reset := preCancelled
  let dres := discover_files c w rootPath root 0
  if c dres.2 then Except.ok ⟨0, 0, [], 0, 0⟩
  else
    let hres := hash_files H c w dres.1 (dres.2 + 1)
    if c hres.2 then Except.ok ⟨0, 0, [], 0, 0⟩
    else
      let dups := (hres.1.map (fun kv => kv.2)).filter (fun g => 1 < g.length)
      match sum_sizes (w (hres.2 + 1)) dres.1 with
      | none => Except.error "OSError"
      | some total =>
        match space_calc (w (hres.2 + 1)) dups with
        | none => Except.error "OSError"
        | some sp => Except.ok ⟨dres.1.length, total, dups, 0, sp⟩

/-- The files scan_folder discovers (value of `files` at line 225). -/
def scanFiles (c : CancelTrace) (w : World) (rootPath : String)
    (root : Option DTree) : List Path :=
  (discover_files c w rootPath root 0).1

/-- The clock at the first checkpoint poll of scan_folder (line 227). -/
def scanK1 (c : CancelTrace) (w : World) (rootPath : String)
    (root : Option DTree) : Nat :=
  (discover_files c w rootPath root 0).2

/-- The clock at the second checkpoint poll of scan_folder (line 233). -/
def scanK2 (H : Hashes) (c : CancelTrace) (w : World) (rootPath : String)
    (root : Option DTree) : Nat :=
  (hash_files H c w (scanFiles c w rootPath root) (scanK1 c w rootPath root + 1)).2

/-- The never-cancelled trace: no cancel request arrives after the reset. -/
def cFalse : CancelTrace := fun _ => false

/-- A file system that does not change while the engine runs. -/
def constW (fs : FS) : World := fun _ => fs

/-- Hash parameters used by concrete runs.  Any concrete functions serve:
the engine treats the two hashes as opaque, and each theorem states the
collision assumptions it needs explicitly. -/
def sampleHashes : Hashes := ⟨fun s => s.length, fun s => s⟩

/-- A root directory holding a single valid file. -/
def oneTree : DTree := DTree.node ["a.txt"] []

/-- Metadata for `oneTree` rooted at "/r". -/
def oneFS : FS := [("/r/a.txt", ⟨5, "hello"⟩)]

/-- A world in which the one file exists through discovery and hashing
(clock ticks 0-5 of the one-file scan) but has vanished by the time the
statistics pass of scan_folder stats it (clock 6). -/
def vanishW : World := fun k => if k ≤ 5 then oneFS else []

/-! ### Cleanup executor: move_duplicates and delete_duplicates

These operate on a source view `List (Path × Nat)` (path → stat size, the
only metadata they read) and, for relocation, on the list of full paths
already occupied in the destination directory.  Removing and moving mutate
that state, so it is threaded through the loops. -/

/-- Lookup of a path's stat size (os.path.getsize for the cleanup loops). -/
def sizeFind (fs : List (Path × Nat)) (p : Path) : Option Nat :=
  match fs with
  | [] => none
  | e :: rest => if e.1 = p then some e.2 else sizeFind rest p

/-- os.remove / the source-side effect of shutil.move: the entry is gone. -/
def eraseKey (fs : List (Path × Nat)) (p : Path) : List (Path × Nat) :=
  match fs with
  | [] => []
  | e :: rest => if e.1 = p then rest else e :: eraseKey rest p

/-- The candidate destination path f-string of move_duplicates (line 284):
destination/name_counter-ext. -/
def gen_name (dst name sfx : String) (n : Nat) : String :=
  dst ++ "/" ++ name ++ "_" ++ toString n ++ sfx

/-- The `while os.path.exists(dest_path)` loop (lines 283-285), counting up
from the given candidate index.  The source loop terminates because the
destination directory holds finitely many names; here the companion fuel
argument bounds the search, and callers pass occ.length + 1, enough
whenever a free candidate exists among the first occ.length + 1. -/
def find_dest_loop (occ : List String) (dst name sfx : String) :
    Nat → Nat → String
  | n, 0 => gen_name dst name sfx n
  | n, fuel + 1 =>
    if gen_name dst name sfx n ∈ occ then find_dest_loop occ dst name sfx (n + 1) fuel
    else gen_name dst name sfx n

/-- Collision-free destination computation of move_duplicates
(lines 278-285): try destination/base first, then name_1, name_2, ... -/
def find_dest (occ : List String) (dst base : String) : String :=
  if (dst ++ "/" ++ base) ∈ occ then
    find_dest_loop occ dst (splitext base).1 (splitext base).2 1 (occ.length + 1)
  else dst ++ "/" ++ base

/-- State threaded through move_duplicates: paths occupied at the
destination, the source view, the two counters the function returns, and
the log of (source, destination) pairs of the moves performed. -/
structure MoveState where
  occ : List String
  src : List (Path × Nat)
  moved_count : Nat
  moved_size : Nat
  moves : List (Path × String)
deriving DecidableEq

/-- Inner loop of move_duplicates over group[1:]: compute the collision
free destination, move, count the post-move stat size; an OSError from the
move (source gone) skips that file.  (`original = group[0]` at line 274 is
read but never used; on an empty group that subscript would raise
IndexError, a case no caller produces and none of the claims touch.) -/
def move_group (dst : String) (st : MoveState) : List Path → MoveState
  | [] => st
  | p :: rest =>
    let dest := find_dest st.occ dst (osBasename p)
    match sizeFind st.src p with
    | none => move_group dst st rest
    | some s =>
      move_group dst
        ⟨st.occ ++ [dest], eraseKey st.src p, st.moved_count + 1,
          st.moved_size + s, st.moves ++ [(p, dest)]⟩ rest

/-- ScanEngine.move_duplicates: a poll of the cancellation flag per group
(line 270); index 0 of each group is never an argument of the move loop. -/
def move_duplicates (c : CancelTrace) (dst : String) :
    List (List Path) → Nat → MoveState → MoveState × Nat
  | [], k, st => (st, k)
  | g :: rest, k, st =>
    if c k then (st, k + 1)
    else move_duplicates c dst rest (k + 1) (move_group dst st (g.drop 1))

/-- State threaded through delete_duplicates: the source view and the two
counters the function returns. -/
structure DeleteState where
  fs : List (Path × Nat)
  deleted_count : Nat
  deleted_size : Nat
deriving DecidableEq

/-- Inner loop of delete_duplicates over group[1:]: stat then remove; an
OSError on one file (already gone) skips it and continues. -/
def delete_tail (st : DeleteState) : List Path → DeleteState
  | [] => st
  | p :: rest =>
    match sizeFind st.fs p with
    | none => delete_tail st rest
    | some s =>
      delete_tail ⟨eraseKey st.fs p, st.deleted_count + 1, st.deleted_size + s⟩ rest

/-- ScanEngine.delete_duplicates: a poll of the cancellation flag per group
(line 304); index 0 of each group is never an argument of the delete loop. -/
def delete_duplicates (c : CancelTrace) :
    List (List Path) → Nat → DeleteState → DeleteState × Nat
  | [], k, st => (st, k)
  | g :: rest, k, st =>
    if c k then (st, k + 1)
    else delete_duplicates c rest (k + 1) (delete_tail st (g.drop 1))

/-! ### Pure views of the pipeline stages

For a never-cancelled run over an unchanging file system the staged loops
compute the following clock-free values; the theorems below prove the
stage functions equal to them.  These definitions exist to state and chain
the characterisations — the engine itself is the set of functions above. -/

/-- The grouping key of _group_by_size: the stat size, when stat works. -/
def sizeKey (fs : FS) (p : Path) : Option Nat :=
  (fsFind fs p).map (fun e => e.size)

/-- The grouping key of the CRC pass: (bucket size, crc32), when the read
works. -/
def crcKey (H : Hashes) (fs : FS) (sp : Nat × Path) : Option (Nat × Nat) :=
  (crc32_hash H fs sp.2).map (fun h => (sp.1, h))

/-- The grouping key of the MD5 collection loop: the digest, when the read
works and the digest is truthy (line 207 drops a falsy empty string). -/
def md5Key (H : Hashes) (fs : FS) (p : Path) : Option String :=
  match md5_hash H fs p with
  | none => none
  | some d => if d = "" then none else some d

/-- The files an uncancelled walk admits, in discovery order. -/
def discPure (fs : FS) (ts : List (String × List String)) : List Path :=
  (ts.map (fun t =>
    if should_skip_folder t.1 then []
    else (t.2.filter (fun n => is_valid_file fs (t.1 ++ "/" ++ n))).map
      (fun n => t.1 ++ "/" ++ n))).flatten

/-- The size buckets of an uncancelled _group_by_size. -/
def sizeGroupsOf (fs : FS) (files : List Path) : List (Nat × List Path) :=
  groupFoldV (sizeKey fs) (fun p => p) files []

/-- The (size, path) pairs the CRC pass feeds to its grouping: members of
multi-member size buckets tagged with their bucket size, in bucket order. -/
def promotedPairs (sgs : List (Nat × List Path)) : List (Nat × Path) :=
  (sgs.map (fun sg =>
    if sg.2.length < 2 then [] else sg.2.map (fun p => (sg.1, p)))).flatten

/-- The CRC groups of an uncancelled CRC pass. -/
def crcGroupsOf (H : Hashes) (fs : FS) (files : List Path) :
    List ((Nat × Nat) × List Path) :=
  groupFoldV (crcKey H fs) Prod.snd (promotedPairs (sizeGroupsOf fs files)) []

/-- The submission order of the MD5 stage: members of multi-member CRC
groups, group by group. -/
def submissionsOf (H : Hashes) (fs : FS) (files : List Path) : List Path :=
  (((crcGroupsOf H fs files).map (fun kv => kv.2)).filter
    (fun g => 1 < g.length)).flatten

/-- The MD5 groups of an uncancelled run. -/
def md5GroupsOf (H : Hashes) (fs : FS) (files : List Path) :
    List (String × List Path) :=
  groupFoldV (md5Key H fs) (fun p => p) (submissionsOf H fs files) []

/-- The final duplicate groups of an uncancelled run. -/
def dupsOf (H : Hashes) (fs : FS) (files : List Path) : List (List Path) :=
  ((md5GroupsOf H fs files).map (fun kv => kv.2)).filter (fun g => 1 < g.length)

/-! ### Completion-order model of the MD5 worker pool

The pool computes, for each submitted file (indexed in submission order),
its digest; the finished futures form some permutation of these indexed
results — the completion order.  The collection loop of _hash_files
iterates the futures dict in submission order and blocks on each future's
own result, so it consumes the indexed results regardless of the
permutation; collect_sched models that consumption. -/

/-- The indexed results the pool produces for the submitted files, from a
given starting index. -/
def future_results (H : Hashes) (fs : FS) : List Path → Nat → List (Nat × Option String)
  | [], _ => []
  | p :: rest, i => (i, md5_hash H fs p) :: future_results H fs rest (i + 1)

/-- Retrieval of one future's value from the (arbitrarily ordered) result
list. -/
def lookupIdx (i : Nat) : List (Nat × Option String) → Option (Option String)
  | [] => none
  | e :: rest => if i = e.1 then some e.2 else lookupIdx i rest

/-- The collection loop consuming pool results: submission order drives the
iteration, each step retrieves the current future's own value. -/
def collect_sched (res : List (Nat × Option String)) :
    List Path → Nat → List (String × List Path) → List (String × List Path)
  | [], _, acc => acc
  | p :: rest, i, acc =>
    match (lookupIdx i res).getD none with
    | none => collect_sched res rest (i + 1) acc
    | some d =>
      if d = "" then collect_sched res rest (i + 1) acc
      else collect_sched res rest (i + 1) (upsert acc d p)

/-- Two files used by the completion-order witness. -/
def permFS : FS := [("/p", ⟨1, "x"⟩), ("/q", ⟨1, "y"⟩)]

/-! ### Concrete fixtures for C1, C2 and C6 -/

/-- The spec's C6 scenario tree: a.txt, b.txt, c.txt in one directory. -/
def c6Tree : DTree := DTree.node ["a.txt", "b.txt", "c.txt"] []

/-- C6 metadata: 10-byte files, contents "hello", "hello", "world". -/
def c6FS : FS :=
  [("/root/a.txt", ⟨10, "hello"⟩), ("/root/b.txt", ⟨10, "hello"⟩),
   ("/root/c.txt", ⟨10, "world"⟩)]

/-- Hashes whose strong digest is constant: an extreme cross-size MD5-class
collision, as the C1 claim's parenthetical contemplates. -/
def constMd5 : Hashes := ⟨fun s => s.length, fun _ => "m"⟩

/-- C1 counterexample tree: four files in one directory. -/
def c1Tree : DTree := DTree.node ["a.txt", "b.txt", "c.txt", "d.txt"] []

/-- C1 counterexample metadata: two size-1 files and two size-2 files whose
digests all collide under constMd5. -/
def c1FS : FS :=
  [("/r/a.txt", ⟨1, "x"⟩), ("/r/b.txt", ⟨1, "x"⟩),
   ("/r/c.txt", ⟨2, "yy"⟩), ("/r/d.txt", ⟨2, "yy"⟩)]

/-- C2 counterexample tree: discovery order a, c, b, d. -/
def c2Tree : DTree := DTree.node ["a.txt", "c.txt", "b.txt", "d.txt"] []

/-- C2 counterexample metadata: equal sizes, two CRC classes interleaved in
discovery order, digests all colliding under constMd5. -/
def c2FS : FS :=
  [("/r/a.txt", ⟨1, "x"⟩), ("/r/c.txt", ⟨1, "yy"⟩),
   ("/r/b.txt", ⟨1, "x"⟩), ("/r/d.txt", ⟨1, "yy"⟩)]

/-! ## Theorems -/

/-! ### Generic facts about the defaultdict grouping -/

/-- Appending a value to its key's group extends exactly that group. -/
theorem lookupG_upsert_self {κ α : Type} [DecidableEq κ] :
    ∀ (gs : List (κ × List α)) (k : κ) (v : α),
      lookupG k (upsert gs k v) = lookupG k gs ++ [v] := by
  intro gs k v
  induction gs with
  | nil => simp [upsert, lookupG]
  | cons e rest ih =>
    obtain ⟨k2, vs⟩ := e
    by_cases he : k = k2
    · subst he
      simp [upsert, lookupG]
    · simp [upsert, lookupG, he, ih]

/-- Appending a value to one key leaves every other key's group alone. -/
theorem lookupG_upsert_ne {κ α : Type} [DecidableEq κ] :
    ∀ (gs : List (κ × List α)) (k k2 : κ) (v : α), k ≠ k2 →
      lookupG k (upsert gs k2 v) = lookupG k gs := by
  intro gs k k2 v h
  induction gs with
  | nil => simp [upsert, lookupG, h]
  | cons e rest ih =>
    obtain ⟨k3, vs⟩ := e
    by_cases h2 : k2 = k3
    · subst h2
      simp [upsert, lookupG, h]
    · by_cases h3 : k = k3
      · subst h3
        simp [upsert, lookupG, h2, Ne.symm h2]
      · simp [upsert, lookupG, h2, h3, ih]

/-- One step of the grouping fold. -/
theorem groupFoldV_cons {κ α β : Type} [DecidableEq κ] (keyOf : α → Option κ)
    (val : α → β) (x : α) (xs : List α) (acc : List (κ × List β)) :
    groupFoldV keyOf val (x :: xs) acc =
      groupFoldV keyOf val xs
        (match keyOf x with
         | none => acc
         | some k => upsert acc k (val x)) := rfl

/-- The grouping fold over an appended list factors into two folds. -/
theorem groupFoldV_append {κ α β : Type} [DecidableEq κ] (keyOf : α → Option κ)
    (val : α → β) (xs ys : List α) (acc : List (κ × List β)) :
    groupFoldV keyOf val (xs ++ ys) acc =
      groupFoldV keyOf val ys (groupFoldV keyOf val xs acc) := by
  simp [groupFoldV, List.foldl_append]

/-- Each key's final group is its initial group followed by the keyed
items, in input order. -/
theorem lookupG_groupFoldV {κ α β : Type} [DecidableEq κ] (keyOf : α → Option κ)
    (val : α → β) :
    ∀ (xs : List α) (acc : List (κ × List β)) (k : κ),
      lookupG k (groupFoldV keyOf val xs acc) =
        lookupG k acc ++ (xs.filter (fun x => keyOf x = some k)).map val := by
  intro xs
  induction xs with
  | nil => intro acc k; simp [groupFoldV]
  | cons x rest ih =>
    intro acc k
    rw [groupFoldV_cons]
    cases hx : keyOf x with
    | none =>
      rw [ih]
      have : (decide (keyOf x = some k)) = false := by simp [hx]
      simp [List.filter_cons, this]
    | some k2 =>
      by_cases hk : k2 = k
      · subst hk
        rw [ih, lookupG_upsert_self]
        have : (decide (keyOf x = some k2)) = true := by simp [hx]
        simp [List.filter_cons, this]
      · rw [ih, lookupG_upsert_ne _ _ _ _ (Ne.symm hk)]
        have : (decide (keyOf x = some k)) = false := by simp [hx, hk]
        simp [List.filter_cons, this]

/-- upsert either reuses an existing key or appends the new key at the
end. -/
theorem upsert_keys {κ α : Type} [DecidableEq κ] :
    ∀ (gs : List (κ × List α)) (k : κ) (v : α),
      (upsert gs k v).map Prod.fst =
        if k ∈ gs.map Prod.fst then gs.map Prod.fst
        else gs.map Prod.fst ++ [k] := by
  intro gs k v
  induction gs with
  | nil => simp [upsert]
  | cons e rest ih =>
    obtain ⟨k2, vs⟩ := e
    by_cases he : k = k2
    · subst he
      simp [upsert]
    · simp only [upsert, if_neg he, List.map_cons, List.mem_cons]
      rw [ih]
      by_cases hm : k ∈ rest.map Prod.fst
      · simp [hm, he]
      · simp [hm, he]

/-- upsert preserves key uniqueness. -/
theorem upsert_keys_nodup {κ α : Type} [DecidableEq κ] (gs : List (κ × List α))
    (k : κ) (v : α) (h : (gs.map Prod.fst).Nodup) :
    ((upsert gs k v).map Prod.fst).Nodup := by
  rw [upsert_keys]
  by_cases hm : k ∈ gs.map Prod.fst
  · simpa [hm] using h
  · simp only [hm, if_false]
    rw [List.nodup_append]
    exact ⟨h, List.nodup_singleton k, by simpa using hm⟩

/-- The grouping fold preserves key uniqueness. -/
theorem groupFoldV_keys_nodup {κ α β : Type} [DecidableEq κ] (keyOf : α → Option κ)
    (val : α → β) :
    ∀ (xs : List α) (acc : List (κ × List β)), (acc.map Prod.fst).Nodup →
      ((groupFoldV keyOf val xs acc).map Prod.fst).Nodup := by
  intro xs
  induction xs with
  | nil => intro acc h; exact h
  | cons x rest ih =>
    intro acc h
    rw [groupFoldV_cons]
    cases hx : keyOf x with
    | none => exact ih acc h
    | some k => exact ih _ (upsert_keys_nodup acc k (val x) h)

/-- With unique keys, a member entry is what lookup returns. -/
theorem mem_eq_lookupG {κ β : Type} [DecidableEq κ] :
    ∀ (gs : List (κ × List β)), (gs.map Prod.fst).Nodup →
      ∀ (k : κ) (g : List β), (k, g) ∈ gs → lookupG k gs = g := by
  intro gs
  induction gs with
  | nil => intro _ k g hg; cases hg
  | cons e rest ih =>
    intro hnd k g hg
    simp only [List.map_cons, List.nodup_cons] at hnd
    rcases List.mem_cons.mp hg with he | hr
    · rw [← he]
      simp [lookupG]
    · have hk : k ≠ e.1 := by
        intro hh
        exact hnd.1 (hh ▸ List.mem_map.mpr ⟨(k, g), hr, rfl⟩)
      simp only [lookupG, if_neg hk]
      exact ih hnd.2 k g hr

/-! ### The uncancelled, constant-world pipeline equals its pure view -/

/-- The per-directory file loop, uncancelled: appends exactly the valid
files of the directory in listed order. -/
theorem fileLoop_cFalse (fs : FS) (dp : String) :
    ∀ (ns : List String) (k : Nat) (acc : List Path),
      fileLoop cFalse (constW fs) dp ns k acc =
        (acc ++ (ns.filter (fun n => is_valid_file fs (dp ++ "/" ++ n))).map
          (fun n => dp ++ "/" ++ n), k + ns.length) := by
  intro ns
  induction ns with
  | nil => intro k acc; simp [fileLoop]
  | cons n rest ih =>
    intro k acc
    simp only [fileLoop, cFalse, Bool.false_eq_true, if_false, constW]
    by_cases hv : is_valid_file fs (dp ++ "/" ++ n)
    · rw [if_pos hv, ih]
      simp only [List.filter_cons, hv, if_true, List.map_cons, List.length_cons]
      refine Prod.ext ?_ ?_
      · simp
      · simp; omega
    · rw [if_neg hv, ih]
      simp only [List.filter_cons, hv, if_false, List.length_cons]
      refine Prod.ext ?_ ?_
      · simp
      · simp; omega

/-- The walk-triple loop, uncancelled: collects discPure. -/
theorem discTriples_cFalse (fs : FS) :
    ∀ (ts : List (String × List String)) (k : Nat) (acc : List Path),
      (discTriples cFalse (constW fs) ts k acc).1 = acc ++ discPure fs ts := by
  intro ts
  induction ts with
  | nil => intro k acc; simp [discTriples, discPure]
  | cons t rest ih =>
    intro k acc
    obtain ⟨dp, fns⟩ := t
    simp only [discTriples, cFalse, Bool.false_eq_true, if_false]
    by_cases hs : should_skip_folder dp
    · rw [if_pos hs, ih]
      simp [discPure, hs]
    · rw [if_neg hs]
      rw [fileLoop_cFalse, ih]
      simp [discPure, hs]

/-- Uncancelled discovery over an existing root yields discPure of the
pruned walk. -/
theorem scanFiles_cFalse (fs : FS) (rp : String) (t : DTree) :
    scanFiles cFalse (constW fs) rp (some t) =
      discPure fs (walkPrunedAt rp t) := by
  simp [scanFiles, discover_files, discTriples_cFalse]

/-- Uncancelled size grouping equals the grouping fold keyed by stat
size. -/
theorem group_by_size_cFalse (fs : FS) :
    ∀ (ps : List Path) (k : Nat) (acc : List (Nat × List Path)),
      (group_by_size cFalse (constW fs) ps k acc).1 =
        groupFoldV (sizeKey fs) (fun p => p) ps acc := by
  intro ps
  induction ps with
  | nil => intro k acc; simp [group_by_size, groupFoldV]
  | cons p rest ih =>
    intro k acc
    simp only [group_by_size, cFalse, Bool.false_eq_true, if_false, constW]
    rw [groupFoldV_cons]
    cases hp : fsFind fs p with
    | none => rw [ih]; simp [sizeKey, hp]
    | some e => rw [ih]; simp [sizeKey, hp]

/-- One size bucket's CRC fold equals the grouping fold over its tagged
pairs. -/
theorem crc_fold_eq (H : Hashes) (fs : FS) (sz : Nat) (fl : List Path)
    (acc : List ((Nat × Nat) × List Path)) :
    crc_fold H fs sz fl acc =
      groupFoldV (crcKey H fs) Prod.snd (fl.map (fun p => (sz, p))) acc := by
  simp only [crc_fold, groupFoldV, List.foldl_map]
  rfl

/-- The uncancelled CRC pass equals the grouping fold over the promoted
(size, path) pairs. -/
theorem crc_pass_cFalse (H : Hashes) (fs : FS) :
    ∀ (sgs : List (Nat × List Path)) (k : Nat)
      (acc : List ((Nat × Nat) × List Path)),
      (crc_pass H cFalse (constW fs) sgs k acc).1 =
        groupFoldV (crcKey H fs) Prod.snd (promotedPairs sgs) acc := by
  intro sgs
  induction sgs with
  | nil => intro k acc; simp [crc_pass, promotedPairs, groupFoldV]
  | cons sg rest ih =>
    intro k acc
    obtain ⟨sz, fl⟩ := sg
    simp only [crc_pass, cFalse, Bool.false_eq_true, if_false, constW]
    by_cases hl : fl.length < 2
    · rw [if_pos hl, ih]
      simp [promotedPairs, hl]
    · rw [if_neg hl, ih, crc_fold_eq]
      simp only [promotedPairs, List.map_cons, List.flatten_cons, hl, if_false,
        groupFoldV_append]

/-- The uncancelled submission loop concatenates the promoted groups. -/
theorem submit_cFalse :
    ∀ (gs : List (List Path)) (k : Nat) (acc : List Path),
      (submit_loop cFalse gs k acc).1 = acc ++ gs.flatten := by
  intro gs
  induction gs with
  | nil => intro k acc; simp [submit_loop]
  | cons g rest ih =>
    intro k acc
    simp only [submit_loop, cFalse, Bool.false_eq_true, if_false]
    rw [ih]
    simp

/-- The uncancelled collection loop equals the grouping fold keyed by the
truthy digest. -/
theorem collect_cFalse (H : Hashes) (fs : FS) :
    ∀ (ps : List Path) (k : Nat) (acc : List (String × List Path)),
      (collect_loop H cFalse (constW fs) ps k acc).1 =
        groupFoldV (md5Key H fs) (fun p => p) ps acc := by
  intro ps
  induction ps with
  | nil => intro k acc; simp [collect_loop, groupFoldV]
  | cons p rest ih =>
    intro k acc
    simp only [collect_loop, cFalse, Bool.false_eq_true, if_false, constW]
    rw [groupFoldV_cons]
    cases hp : md5_hash H fs p with
    | none => simp [ih, md5Key, hp]
    | some d =>
      by_cases hd : d = ""
      · subst hd
        simp [ih, md5Key, hp]
      · simp [ih, md5Key, hp, hd]

/-- The uncancelled hashing stage produces exactly the pure MD5 groups. -/
theorem hash_files_cFalse (H : Hashes) (fs : FS) (files : List Path) (k : Nat) :
    (hash_files H cFalse (constW fs) files k).1 = md5GroupsOf H fs files := by
  simp only [hash_files]
  rw [collect_cFalse, submit_cFalse, crc_pass_cFalse, group_by_size_cFalse]
  simp [md5GroupsOf, submissionsOf, crcGroupsOf, sizeGroupsOf]

/-- An uncancelled constant-world scan that returns ok reports exactly the
pure duplicate groups of the discovered files. -/
theorem scan_folder_cFalse_duplicates (H : Hashes) (fs : FS) (pre : Bool)
    (rp : String) (rt : Option DTree) (r : ScanResult)
    (h : scan_folder H pre cFalse (constW fs) rp rt = Except.ok r) :
    r.duplicates = dupsOf H fs (scanFiles cFalse (constW fs) rp rt) := by
  unfold scan_folder at h
  simp only [cFalse, Bool.false_eq_true, if_false] at h
  rw [hash_files_cFalse] at h
  cases hs : sum_sizes ((constW fs) ((hash_files H cFalse (constW fs)
      (discover_files cFalse (constW fs) rp rt 0).1
      ((discover_files cFalse (constW fs) rp rt 0).2 + 1)).2 + 1))
      (discover_files cFalse (constW fs) rp rt 0).1 with
  | none => rw [hs] at h; cases h
  | some total =>
    rw [hs] at h
    cases hsp : space_calc ((constW fs) ((hash_files H cFalse (constW fs)
        (discover_files cFalse (constW fs) rp rt 0).1
        ((discover_files cFalse (constW fs) rp rt 0).2 + 1)).2 + 1))
        (((md5GroupsOf H fs (discover_files cFalse (constW fs) rp rt 0).1).map
          (fun kv => kv.2)).filter (fun g => 1 < g.length)) with
    | none => rw [hsp] at h; cases h
    | some sp =>
      rw [hsp] at h
      cases h
      simp [dupsOf, scanFiles]

/-- Unpacking a truthy-digest key: the file was readable and its digest is
the key. -/
theorem md5Key_some (H : Hashes) (fs : FS) (p : Path) (d : String)
    (h : md5Key H fs p = some d) :
    ∃ e, fsFind fs p = some e ∧ H.md5 e.content = d ∧ d ≠ "" := by
  unfold md5Key md5_hash at h
  cases hp : fsFind fs p with
  | none => rw [hp] at h; cases h
  | some e =>
    rw [hp] at h
    simp only [Option.map_some'] at h
    by_cases he : H.md5 e.content = ""
    · rw [if_pos he] at h; cases h
    · rw [if_neg he] at h
      have hd : H.md5 e.content = d := by
        injection h
      exact ⟨e, rfl, hd, hd ▸ he⟩

/-- A successful lookup's entry is one of the map's values. -/
theorem fsFind_mem_values (fs : FS) (p : Path) (e : FileEnt)
    (h : fsFind fs p = some e) : e ∈ fs.map Prod.snd := by
  induction fs with
  | nil => cases h
  | cons f rest ih =>
    simp only [fsFind] at h
    by_cases hf : f.1 = p
    · rw [if_pos hf] at h
      obtain rfl := Option.some.injEq _ _ ▸ h.symm
      exact List.mem_map.mpr ⟨f, List.mem_cons_self f rest, rfl⟩
    · rw [if_neg hf] at h
      exact List.mem_cons_of_mem _ (ih h)

/-- Every final duplicate group is a multi-member MD5 group. -/
theorem dupsOf_mem (H : Hashes) (fs : FS) (files : List Path) (g : List Path)
    (hg : g ∈ dupsOf H fs files) :
    ∃ d, (d, g) ∈ md5GroupsOf H fs files ∧ 1 < g.length := by
  simp only [dupsOf, List.mem_filter, List.mem_map, decide_eq_true_eq] at hg
  obtain ⟨⟨kv, hkv, hsnd⟩, hlen⟩ := hg
  exact ⟨kv.1, by rw [← hsnd]; exact hkv, hlen⟩

/-- An MD5 group with digest d holds exactly the submitted files whose
truthy digest is d, in submission order. -/
theorem md5Group_eq_filter (H : Hashes) (fs : FS) (files : List Path)
    (d : String) (g : List Path) (hg : (d, g) ∈ md5GroupsOf H fs files) :
    g = (submissionsOf H fs files).filter (fun p => md5Key H fs p = some d) := by
  have hnd : ((md5GroupsOf H fs files).map Prod.fst).Nodup :=
    groupFoldV_keys_nodup (md5Key H fs) (fun p => p) (submissionsOf H fs files)
      [] (by simp)
  have hl := mem_eq_lookupG (md5GroupsOf H fs files) hnd d g hg
  rw [← hl]
  rw [md5GroupsOf, lookupG_groupFoldV]
  simp [lookupG]

/-- C1 (amended): in every completed (uncancelled, stable-file-system)
scan, all members of one duplicate group have the same strong digest
unconditionally; their sizes are also all equal provided the digest
function does not collide across files of different sizes (the code keys
final groups by digest alone, so nothing enforces the size part when the
MD5-class digest collides across sizes, as c1_counterexample shows). -/
theorem c1_amended :
    (∀ (H : Hashes) (fs : FS) (pre : Bool) (rp : String) (rt : Option DTree)
      (r : ScanResult), scan_folder H pre cFalse (constW fs) rp rt = Except.ok r →
      ∀ g ∈ r.duplicates, ∀ p ∈ g, ∀ q ∈ g,
        ∃ ep eq2, fsFind fs p = some ep ∧ fsFind fs q = some eq2 ∧
          H.md5 ep.content = H.md5 eq2.content) ∧
    (∀ (H : Hashes) (fs : FS),
      (∀ a ∈ fs.map Prod.snd, ∀ b ∈ fs.map Prod.snd,
        H.md5 a.content = H.md5 b.content → a.size = b.size) →
      ∀ (pre : Bool) (rp : String) (rt : Option DTree) (r : ScanResult),
        scan_folder H pre cFalse (constW fs) rp rt = Except.ok r →
        ∀ g ∈ r.duplicates, ∀ p ∈ g, ∀ q ∈ g,
          ∃ ep eq2, fsFind fs p = some ep ∧ fsFind fs q = some eq2 ∧
            ep.size = eq2.size) := by
  have key : ∀ (H : Hashes) (fs : FS) (pre : Bool) (rp : String)
      (rt : Option DTree) (r : ScanResult),
      scan_folder H pre cFalse (constW fs) rp rt = Except.ok r →
      ∀ g ∈ r.duplicates, ∀ p ∈ g, ∀ q ∈ g,
        ∃ ep eq2, fsFind fs p = some ep ∧ fsFind fs q = some eq2 ∧
          H.md5 ep.content = H.md5 eq2.content := by
    intro H fs pre rp rt r hok g hg p hp q hq
    rw [scan_folder_cFalse_duplicates H fs pre rp rt r hok] at hg
    obtain ⟨d, hdg, _⟩ := dupsOf_mem H fs _ g hg
    have hfil := md5Group_eq_filter H fs _ d g hdg
    rw [hfil] at hp hq
    have hp2 := (List.mem_filter.mp hp).2
    have hq2 := (List.mem_filter.mp hq).2
    simp only [decide_eq_true_eq] at hp2 hq2
    obtain ⟨ep, hep, hdp, _⟩ := md5Key_some H fs p d hp2
    obtain ⟨eq2, heq, hdq, _⟩ := md5Key_some H fs q d hq2
    exact ⟨ep, eq2, hep, heq, by rw [hdp, hdq]⟩
  refine ⟨key, ?_⟩
  intro H fs hH pre rp rt r hok g hg p hp q hq
  obtain ⟨ep, eq2, hep, heq, hd⟩ := key H fs pre rp rt r hok g hg p hp q hq
  exact ⟨ep, eq2, hep, heq,
    hH ep (fsFind_mem_values fs p ep hep) eq2 (fsFind_mem_values fs q eq2 heq) hd⟩

/-- C1 counterexample: with a strong digest that collides across sizes
(constant "m"), a scan places the two 1-byte files and the two 2-byte files
into one and the same duplicate group — two members of the group have
different sizes, refuting the claim exactly on the input class its
parenthetical names. -/
theorem c1_counterexample :
    scan_folder constMd5 false cFalse (constW c1FS) "/r" (some c1Tree) =
      Except.ok ⟨4, 6, [["/r/a.txt", "/r/b.txt", "/r/c.txt", "/r/d.txt"]], 0, 5⟩ ∧
    fsFind c1FS "/r/a.txt" = some ⟨1, "x"⟩ ∧
    fsFind c1FS "/r/c.txt" = some ⟨2, "yy"⟩ :=
  ⟨rfl, rfl, rfl⟩

/-- C1 witness: the amended size clause applied to a collision-free run on
the C6 fixture (identity digest): the two members of its duplicate group
carry entries of equal size. -/
theorem c1_witness :
    ∃ ep eq2, fsFind c6FS "/root/a.txt" = some ep ∧
      fsFind c6FS "/root/b.txt" = some eq2 ∧ ep.size = eq2.size :=
  c1_amended.2 sampleHashes c6FS
    (by intro a ha b hb hmd; fin_cases ha <;> fin_cases hb <;> rfl)
    false "/root" (some c6Tree)
    ⟨3, 30, [["/root/a.txt", "/root/b.txt"]], 0, 10⟩ rfl
    ["/root/a.txt", "/root/b.txt"] (by decide) "/root/a.txt" (by decide)
    "/root/b.txt" (by decide)

/-- Filtering a mapped list filters the originals. -/
theorem filter_over_map {α β : Type} (f : α → β) (pr : β → Bool) :
    ∀ l : List α, (l.map f).filter pr = (l.filter (fun x => pr (f x))).map f := by
  intro l
  induction l with
  | nil => rfl
  | cons x rest ih =>
    simp only [List.map_cons, List.filter_cons]
    by_cases hx : pr (f x)
    · simp [hx, ih]
    · simp [hx, ih]

/-- Filtering a flattened list filters each component. -/
theorem filter_flatten {α : Type} (pr : α → Bool) :
    ∀ (M : List (List α)),
      M.flatten.filter pr = (M.map (fun l => l.filter pr)).flatten := by
  intro M
  induction M with
  | nil => rfl
  | cons l rest ih =>
    simp [List.filter_append, ih]

/-- A size bucket holds exactly the files of that stat size, in discovery
order. -/
theorem sizeGroup_lookup (fs : FS) (files : List Path) (s : Nat) :
    lookupG s (sizeGroupsOf fs files) =
      files.filter (fun p => sizeKey fs p = some s) := by
  rw [sizeGroupsOf, lookupG_groupFoldV]
  simp [lookupG]

/-- Every promoted pair is tagged with one of the bucket keys. -/
theorem promotedPairs_fst (sgs : List (Nat × List Path)) :
    ∀ sp ∈ promotedPairs sgs, sp.1 ∈ sgs.map Prod.fst := by
  induction sgs with
  | nil => intro sp h; cases h
  | cons sg rest ih =>
    intro sp hsp
    simp only [promotedPairs, List.map_cons, List.flatten_cons,
      List.mem_append] at hsp
    rcases hsp with hh | ht
    · by_cases hl : sg.2.length < 2
      · rw [if_pos hl] at hh; cases hh
      · rw [if_neg hl] at hh
        obtain ⟨p, _, hpe⟩ := List.mem_map.mp hh
        simp [← hpe]
    · exact List.mem_cons_of_mem _ (ih sp ht)

/-- The crcKey of a tagged pair hits (s, c) exactly when the tag is s and
the file's CRC32 is c. -/
theorem crcKey_eq_iff (H : Hashes) (fs : FS) (s2 : Nat) (p : Path)
    (s c : Nat) :
    crcKey H fs (s2, p) = some (s, c) ↔ s2 = s ∧ crc32_hash H fs p = some c := by
  unfold crcKey
  cases hp : crc32_hash H fs p with
  | none => simp
  | some h => simp

/-- One step of promotedPairs. -/
theorem promotedPairs_cons (sg : Nat × List Path) (rest : List (Nat × List Path)) :
    promotedPairs (sg :: rest) =
      (if sg.2.length < 2 then [] else sg.2.map (fun p => (sg.1, p))) ++
        promotedPairs rest := rfl

/-- Filtering the promoted pairs for one (size, crc) key isolates the
matching members of that size's bucket, in bucket order. -/
theorem promotedPairs_filter (H : Hashes) (fs : FS) :
    ∀ (sgs : List (Nat × List Path)), (sgs.map Prod.fst).Nodup →
      ∀ (s c : Nat),
      (promotedPairs sgs).filter (fun sp => crcKey H fs sp = some (s, c)) =
        ((if (lookupG s sgs).length < 2 then [] else lookupG s sgs).filter
          (fun p => crc32_hash H fs p = some c)).map (fun p => (s, p)) := by
  intro sgs
  induction sgs with
  | nil => intro _ s c; simp [promotedPairs, lookupG]
  | cons sg rest ih =>
    intro hnd s c
    obtain ⟨s2, fl⟩ := sg
    simp only [List.map_cons, List.nodup_cons] at hnd
    rw [promotedPairs_cons, List.filter_append]
    have hrest := ih hnd.2 s c
    by_cases hs : s = s2
    · subst hs
      have htail : (promotedPairs rest).filter
          (fun sp => crcKey H fs sp = some (s, c)) = [] := by
        apply List.filter_eq_nil_iff.mpr
        intro sp hsp
        simp only [decide_eq_true_eq]
        intro hk
        have h1 := (crcKey_eq_iff H fs sp.1 sp.2 s c).mp hk
        exact hnd.1 (h1.1 ▸ promotedPairs_fst rest sp hsp)
      rw [htail, List.append_nil]
      have hlook : lookupG s ((s, fl) :: rest) = fl := by
        simp [lookupG]
      rw [hlook]
      by_cases hl : fl.length < 2
      · simp [hl]
      · rw [if_neg hl, if_neg hl, filter_over_map]
        congr 1
        apply List.filter_congr
        intro p _
        simp only [decide_eq_decide]
        rw [crcKey_eq_iff]
        simp
    · have hhead : ((if fl.length < 2 then []
          else fl.map (fun p => (s2, p))).filter
          (fun sp => crcKey H fs sp = some (s, c))) = [] := by
        apply List.filter_eq_nil_iff.mpr
        intro sp hsp
        simp only [decide_eq_true_eq]
        intro hk
        by_cases hl : fl.length < 2
        · rw [if_pos hl] at hsp; cases hsp
        · rw [if_neg hl] at hsp
          obtain ⟨p, _, hpe⟩ := List.mem_map.mp hsp
          rw [← hpe] at hk
          exact hs ((crcKey_eq_iff H fs s2 p s c).mp hk).1.symm
      rw [hhead, List.nil_append]
      have hlook : lookupG s ((s2, fl) :: rest) = lookupG s rest := by
        simp only [lookupG]
        rw [if_neg hs]
      rw [hlook]
      exact hrest

/-- A CRC group with key (s, c) holds exactly the files of the (promoted)
size-s bucket whose CRC32 is c, in bucket order. -/
theorem crcGroup_char (H : Hashes) (fs : FS) (files : List Path)
    (key : Nat × Nat) (G : List Path) (hG : (key, G) ∈ crcGroupsOf H fs files) :
    G = (if (lookupG key.1 (sizeGroupsOf fs files)).length < 2 then []
         else lookupG key.1 (sizeGroupsOf fs files)).filter
        (fun p => crc32_hash H fs p = some key.2) := by
  obtain ⟨s, c⟩ := key
  have hnd : ((crcGroupsOf H fs files).map Prod.fst).Nodup :=
    groupFoldV_keys_nodup (crcKey H fs) Prod.snd
      (promotedPairs (sizeGroupsOf fs files)) [] (by simp)
  have hsnd : ((sizeGroupsOf fs files).map Prod.fst).Nodup :=
    groupFoldV_keys_nodup (sizeKey fs) (fun p => p) files [] (by simp)
  have hl := mem_eq_lookupG (crcGroupsOf H fs files) hnd (s, c) G hG
  rw [← hl, crcGroupsOf, lookupG_groupFoldV]
  simp only [lookupG, List.nil_append]
  rw [promotedPairs_filter H fs (sizeGroupsOf fs files) hsnd s c]
  rw [List.map_map]
  simp

/-- Every CRC group is a sublist of the discovered files. -/
theorem crcGroup_sublist (H : Hashes) (fs : FS) (files : List Path)
    (key : Nat × Nat) (G : List Path) (hG : (key, G) ∈ crcGroupsOf H fs files) :
    G.Sublist files := by
  rw [crcGroup_char H fs files key G hG]
  by_cases hl : (lookupG key.1 (sizeGroupsOf fs files)).length < 2
  · simp [hl]
  · rw [if_neg hl]
    refine (List.filter_sublist _).trans ?_
    rw [sizeGroup_lookup]
    exact List.filter_sublist files

/-- Every member of a CRC group carries an entry whose stat size and CRC32
match the group key. -/
theorem crcGroup_member (H : Hashes) (fs : FS) (files : List Path)
    (key : Nat × Nat) (G : List Path) (hG : (key, G) ∈ crcGroupsOf H fs files)
    (p : Path) (hp : p ∈ G) :
    ∃ e, fsFind fs p = some e ∧ e.size = key.1 ∧
      H.crc32 e.content % 4294967296 = key.2 := by
  rw [crcGroup_char H fs files key G hG] at hp
  have hcrc := (List.mem_filter.mp hp).2
  have hmem := (List.mem_filter.mp hp).1
  simp only [decide_eq_true_eq] at hcrc
  by_cases hl : (lookupG key.1 (sizeGroupsOf fs files)).length < 2
  · rw [if_pos hl] at hmem; cases hmem
  · rw [if_neg hl] at hmem
    rw [sizeGroup_lookup] at hmem
    have hsz := (List.mem_filter.mp hmem).2
    simp only [decide_eq_true_eq, sizeKey] at hsz
    unfold crc32_hash at hcrc
    cases hf : fsFind fs p with
    | none => rw [hf] at hsz; cases hsz
    | some e =>
      rw [hf] at hsz hcrc
      simp only [Option.map_some', Option.some.injEq] at hsz hcrc
      exact ⟨e, rfl, hsz, hcrc⟩

/-- When every predicate-satisfying member sits under one key, filtering
the flattened groups reduces to filtering that key's group. -/
theorem single_key_flatten {κ : Type} [DecidableEq κ] (pr : Path → Bool) :
    ∀ (L : List (κ × List Path)) (key0 : κ), (L.map Prod.fst).Nodup →
      (∀ kv ∈ L, ∀ p ∈ kv.2, pr p = true → kv.1 = key0) →
      (L.map (fun kv => kv.2.filter pr)).flatten =
        (lookupG key0 L).filter pr := by
  intro L
  induction L with
  | nil => intro key0 _ _; simp [lookupG]
  | cons kv rest ih =>
    intro key0 hnd hall
    simp only [List.map_cons, List.nodup_cons] at hnd
    simp only [List.map_cons, List.flatten_cons]
    by_cases hk : kv.1 = key0
    · have htail : (rest.map (fun kv => kv.2.filter pr)).flatten = [] := by
        apply List.flatten_eq_nil_iff.mpr
        intro l hlmem
        obtain ⟨kv2, hkv2, hle⟩ := List.mem_map.mp hlmem
        rw [← hle]
        apply List.filter_eq_nil_iff.mpr
        intro p hpmem hpr
        apply hnd.1
        rw [hk, ← hall kv2 (List.mem_cons_of_mem _ hkv2) p hpmem hpr]
        exact List.mem_map.mpr ⟨kv2, hkv2, rfl⟩
      rw [htail]
      have hlk : lookupG key0 (kv :: rest) = kv.2 := by
        have hpair : kv = (kv.1, kv.2) := rfl
        rw [hpair]
        simp only [lookupG]
        rw [if_pos hk.symm]
      rw [hlk]
      simp
    · have hhead : kv.2.filter pr = [] := by
        apply List.filter_eq_nil_iff.mpr
        intro p hpmem hpr
        exact hk (hall kv (List.mem_cons_self kv rest) p hpmem hpr)
      rw [hhead]
      have hlk : lookupG key0 (kv :: rest) = lookupG key0 rest := by
        have hpair : kv = (kv.1, kv.2) := rfl
        rw [hpair]
        simp only [lookupG]
        rw [if_neg (fun hh => hk hh.symm)]
      rw [hlk, List.nil_append]
      exact ih key0 hnd.2 (fun kv2 h2 => hall kv2 (List.mem_cons_of_mem _ h2))

/-- The submission list is the concatenation of the promoted CRC groups
(filter commuted inside the value projection). -/
theorem submissions_eq (H : Hashes) (fs : FS) (files : List Path) :
    submissionsOf H fs files =
      (((crcGroupsOf H fs files).filter (fun kv => 1 < kv.2.length)).map
        (fun kv => kv.2)).flatten := by
  unfold submissionsOf
  rw [filter_over_map]

/-- Pool results carry indices at or above their starting index. -/
theorem future_results_bound (H : Hashes) (fs : FS) :
    ∀ (ps : List Path) (i : Nat), ∀ e ∈ future_results H fs ps i, i ≤ e.1 := by
  intro ps
  induction ps with
  | nil => intro i e he; cases he
  | cons p rest ih =>
    intro i e he
    rcases List.mem_cons.mp he with h | h
    · simp [h]
    · exact Nat.le_of_succ_le (ih (i + 1) e h)

/-- Pool result indices are pairwise distinct. -/
theorem future_results_keys_nodup (H : Hashes) (fs : FS) :
    ∀ (ps : List Path) (i : Nat),
      ((future_results H fs ps i).map Prod.fst).Nodup := by
  intro ps
  induction ps with
  | nil => intro i; simp [future_results]
  | cons p rest ih =>
    intro i
    simp only [future_results, List.map_cons, List.nodup_cons]
    refine ⟨?_, ih (i + 1)⟩
    intro hmem
    obtain ⟨e, he, hfst⟩ := List.mem_map.mp hmem
    have := future_results_bound H fs rest (i + 1) e he
    omega

/-- Retrieving a future's own value is permutation-invariant over the
completion order, given distinct indices. -/
theorem lookupIdx_perm :
    ∀ (l1 l2 : List (Nat × Option String)), l1.Perm l2 →
      (l1.map Prod.fst).Nodup → ∀ j, lookupIdx j l1 = lookupIdx j l2 := by
  intro l1 l2 hperm
  induction hperm with
  | nil => intro _ j; rfl
  | cons x h ih =>
    intro hnd j
    simp only [List.map_cons, List.nodup_cons] at hnd
    simp only [lookupIdx]
    by_cases hj : j = x.1
    · rw [if_pos hj, if_pos hj]
    · rw [if_neg hj, if_neg hj]
      exact ih hnd.2 j
  | swap x y l =>
    intro hnd j
    simp only [List.map_cons, List.nodup_cons, List.mem_cons] at hnd
    have hxy : y.1 ≠ x.1 := fun hh => hnd.1 (Or.inl hh)
    simp only [lookupIdx]
    by_cases hx : j = x.1 <;> by_cases hy : j = y.1
    · exact absurd (hy.symm.trans hx) hxy
    · subst hx
      have h1 : ¬(x.1 = y.1) := fun hh => hxy hh.symm
      simp [h1]
    · subst hy
      simp [hxy]
    · simp [hx, hy]
  | trans h12 h23 ih12 ih23 =>
    intro hnd j
    rw [ih12 hnd j, ih23 (h12.map Prod.fst |>.nodup hnd) j]

/-- The collection loop consuming pool results in submission order equals
the grouping fold, whenever each index at or beyond the cursor retrieves
that file's digest. -/
theorem collect_sched_eq (H : Hashes) (fs : FS) :
    ∀ (ps : List Path) (i : Nat) (res : List (Nat × Option String))
      (acc : List (String × List Path)),
      (∀ j, i ≤ j → lookupIdx j res = lookupIdx j (future_results H fs ps i)) →
      collect_sched res ps i acc =
        groupFoldV (md5Key H fs) (fun p => p) ps acc := by
  intro ps
  induction ps with
  | nil => intro i res acc _; rfl
  | cons p rest ih =>
    intro i res acc hres
    have hcur : lookupIdx i res = some (md5_hash H fs p) := by
      rw [hres i le_rfl]
      simp [future_results, lookupIdx]
    have hnext : ∀ j, i + 1 ≤ j →
        lookupIdx j res = lookupIdx j (future_results H fs rest (i + 1)) := by
      intro j hj
      rw [hres j (by omega)]
      simp only [future_results, lookupIdx]
      rw [if_neg (by omega : ¬ j = i)]
    cases hkey : md5Key H fs p with
    | none =>
      have hstep : collect_sched res (p :: rest) i acc =
          collect_sched res rest (i + 1) acc := by
        simp only [collect_sched, hcur, Option.getD_some]
        unfold md5Key at hkey
        cases hp : md5_hash H fs p with
        | none => simp
        | some d =>
          rw [hp] at hkey
          dsimp only at hkey ⊢
          by_cases hd : d = ""
          · simp [hd]
          · rw [if_neg hd] at hkey; cases hkey
      rw [hstep, groupFoldV_cons, hkey]
      exact ih (i + 1) res acc hnext
    | some d =>
      have hne : d ≠ "" ∧ md5_hash H fs p = some d := by
        unfold md5Key at hkey
        cases hp : md5_hash H fs p with
        | none => rw [hp] at hkey; cases hkey
        | some d2 =>
          rw [hp] at hkey
          dsimp only at hkey
          by_cases hd : d2 = ""
          · rw [if_pos hd] at hkey; cases hkey
          · rw [if_neg hd] at hkey
            injection hkey with hh
            exact ⟨fun he => hd (hh.trans he), congrArg some hh⟩
      have hstep : collect_sched res (p :: rest) i acc =
          collect_sched res rest (i + 1) (upsert acc d p) := by
        simp only [collect_sched, hcur, Option.getD_some, hne.2]
        rw [if_neg hne.1]
      rw [hstep, groupFoldV_cons, hkey]
      exact ih (i + 1) res (upsert acc d p) hnext

/-- Collection is independent of the completion order: any permutation of
the pool's indexed results, consumed by the blocking in-submission-order
loop, produces exactly what the engine's collection loop produces. -/
theorem collect_completion_independent (H : Hashes) (fs : FS) (ps : List Path)
    (k : Nat) (res : List (Nat × Option String))
    (hperm : res.Perm (future_results H fs ps 0)) :
    collect_sched res ps 0 [] = (collect_loop H cFalse (constW fs) ps k []).1 := by
  rw [collect_cFalse]
  apply collect_sched_eq
  intro j _
  exact (lookupIdx_perm (future_results H fs ps 0) res hperm.symm
    (future_results_keys_nodup H fs ps 0) j).symm

/-- When the strong digest determines the (size, crc) class among the
stored files, every final duplicate group preserves discovery order: it is
an order-preserving sublist of the discovered file list. -/
theorem dup_group_sublist (H : Hashes) (fs : FS)
    (hH : ∀ a ∈ fs.map Prod.snd, ∀ b ∈ fs.map Prod.snd,
      H.md5 a.content = H.md5 b.content →
        a.size = b.size ∧
          H.crc32 a.content % 4294967296 = H.crc32 b.content % 4294967296)
    (files : List Path) (g : List Path) (hg : g ∈ dupsOf H fs files) :
    g.Sublist files := by
  obtain ⟨d, hdg, hlen⟩ := dupsOf_mem H fs files g hg
  have hfil := md5Group_eq_filter H fs files d g hdg
  have hLnd : (((crcGroupsOf H fs files).filter
      (fun kv => 1 < kv.2.length)).map Prod.fst).Nodup :=
    ((List.filter_sublist _).map Prod.fst).nodup
      (groupFoldV_keys_nodup _ _ _ _ (by simp))
  have hsub := submissions_eq H fs files
  have hne : g ≠ [] := List.ne_nil_of_length_pos (by omega)
  obtain ⟨p0, hp0⟩ := List.exists_mem_of_ne_nil g hne
  have hp0' := hp0
  rw [hfil] at hp0'
  have hp0sub := (List.mem_filter.mp hp0').1
  have hp0key : md5Key H fs p0 = some d := by
    have := (List.mem_filter.mp hp0').2
    simpa using this
  rw [hsub] at hp0sub
  obtain ⟨l0, hl0mem, hp0l0⟩ := List.mem_flatten.mp hp0sub
  obtain ⟨kv0, hkv0, hkv0e⟩ := List.mem_map.mp hl0mem
  rw [← hkv0e] at hp0l0
  have hkv0crc : (kv0.1, kv0.2) ∈ crcGroupsOf H fs files := by
    rw [show ((kv0.1, kv0.2) : (Nat × Nat) × List Path) = kv0 from rfl]
    exact List.mem_of_mem_filter hkv0
  obtain ⟨e0, he0, he0sz, he0crc⟩ :=
    crcGroup_member H fs files kv0.1 kv0.2 hkv0crc p0 hp0l0
  obtain ⟨e0', he0', he0d, _⟩ := md5Key_some H fs p0 d hp0key
  have he0eq : e0' = e0 := by
    rw [he0] at he0'
    injection he0' with hh
    exact hh.symm
  rw [he0eq] at he0d
  have hall : ∀ kv ∈ (crcGroupsOf H fs files).filter (fun kv => 1 < kv.2.length),
      ∀ p ∈ kv.2, (fun p => decide (md5Key H fs p = some d)) p = true →
        kv.1 = kv0.1 := by
    intro kv hkv p hp hpr
    simp only [decide_eq_true_eq] at hpr
    have hkvcrc : (kv.1, kv.2) ∈ crcGroupsOf H fs files := by
      rw [show ((kv.1, kv.2) : (Nat × Nat) × List Path) = kv from rfl]
      exact List.mem_of_mem_filter hkv
    obtain ⟨e, he, hesz, hecrc⟩ :=
      crcGroup_member H fs files kv.1 kv.2 hkvcrc p hp
    obtain ⟨e', he', hed, _⟩ := md5Key_some H fs p d hpr
    have heeq : e' = e := by
      rw [he] at he'
      injection he' with hh
      exact hh.symm
    rw [heeq] at hed
    have hmd : H.md5 e.content = H.md5 e0.content := by rw [hed, he0d]
    have hkey := hH e (fsFind_mem_values fs p e he) e0
      (fsFind_mem_values fs p0 e0 he0) hmd
    have h1 : kv.1.1 = kv0.1.1 := by rw [← hesz, ← he0sz, hkey.1]
    have h2 : kv.1.2 = kv0.1.2 := by rw [← hecrc, ← he0crc, hkey.2]
    exact Prod.ext h1 h2
  have hflat := single_key_flatten (fun p => decide (md5Key H fs p = some d))
    ((crcGroupsOf H fs files).filter (fun kv => 1 < kv.2.length)) kv0.1 hLnd hall
  have hlook : lookupG kv0.1 ((crcGroupsOf H fs files).filter
      (fun kv => 1 < kv.2.length)) = kv0.2 :=
    mem_eq_lookupG _ hLnd kv0.1 kv0.2 (by
      rw [show ((kv0.1, kv0.2) : (Nat × Nat) × List Path) = kv0 from rfl]
      exact hkv0)
  have hg2 : g = kv0.2.filter (fun p => decide (md5Key H fs p = some d)) := by
    rw [hfil, hsub, filter_flatten, List.map_map]
    rw [show ((fun l => List.filter (fun p => decide (md5Key H fs p = some d)) l) ∘
      (fun kv => kv.2)) = (fun kv : (Nat × Nat) × List Path =>
        kv.2.filter (fun p => decide (md5Key H fs p = some d))) from rfl]
    rw [hflat, hlook]
  rw [hg2]
  exact (List.filter_sublist _).trans
    (crcGroup_sublist H fs files kv0.1 kv0.2 hkv0crc)

/-- C2 (amended): final group membership order is independent of the order
in which the concurrent MD5 computations complete, unconditionally (first
clause: any completion permutation of the pool results, consumed by the
blocking collection loop, gives the engine's groups); and each final group
preserves discovery order — is an order-preserving sublist of the
discovered file list — provided the strong digest does not collide across
different (size, fast-hash) classes; the code orders members by promoted
fast-hash-group submission order, so a cross-class digest collision can
interleave groups out of discovery order (c2_counterexample). -/
theorem c2_amended :
    (∀ (H : Hashes) (fs : FS) (ps : List Path) (k : Nat)
      (res : List (Nat × Option String)),
      res.Perm (future_results H fs ps 0) →
      collect_sched res ps 0 [] = (collect_loop H cFalse (constW fs) ps k []).1) ∧
    (∀ (H : Hashes) (fs : FS),
      (∀ a ∈ fs.map Prod.snd, ∀ b ∈ fs.map Prod.snd,
        H.md5 a.content = H.md5 b.content →
          a.size = b.size ∧
            H.crc32 a.content % 4294967296 = H.crc32 b.content % 4294967296) →
      ∀ (pre : Bool) (rp : String) (rt : Option DTree) (r : ScanResult),
        scan_folder H pre cFalse (constW fs) rp rt = Except.ok r →
        ∀ g ∈ r.duplicates,
          g.Sublist (scanFiles cFalse (constW fs) rp rt)) := by
  constructor
  · intro H fs ps k res hperm
    exact collect_completion_independent H fs ps k res hperm
  · intro H fs hH pre rp rt r hok g hg
    rw [scan_folder_cFalse_duplicates H fs pre rp rt r hok] at hg
    exact dup_group_sublist H fs hH (scanFiles cFalse (constW fs) rp rt) g hg

/-- C2 counterexample: with a digest colliding across two CRC classes of
equal-size files, the single final group lists the two classes one after
the other — [a, b, c, d] — while discovery order interleaved them —
[a, c, b, d] — so the group's member order does not preserve discovery
order (it is not a sublist of the discovered list). -/
theorem c2_counterexample :
    scan_folder constMd5 false cFalse (constW c2FS) "/r" (some c2Tree) =
      Except.ok ⟨4, 4, [["/r/a.txt", "/r/b.txt", "/r/c.txt", "/r/d.txt"]], 0, 3⟩ ∧
    scanFiles cFalse (constW c2FS) "/r" (some c2Tree) =
      ["/r/a.txt", "/r/c.txt", "/r/b.txt", "/r/d.txt"] ∧
    ¬ (["/r/a.txt", "/r/b.txt", "/r/c.txt", "/r/d.txt"] : List Path).Sublist
      ["/r/a.txt", "/r/c.txt", "/r/b.txt", "/r/d.txt"] :=
  ⟨rfl, rfl, by decide⟩

/-- C2 witness: a swapped completion order of two pool results yields the
engine's groups, and the C6 run's duplicate group is in discovery order. -/
theorem c2_witness :
    collect_sched [(1, some "y"), (0, some "x")] ["/p", "/q"] 0 [] =
      (collect_loop sampleHashes cFalse (constW permFS) ["/p", "/q"] 0 []).1 ∧
    (["/root/a.txt", "/root/b.txt"] : List Path).Sublist
      (scanFiles cFalse (constW c6FS) "/root" (some c6Tree)) :=
  ⟨c2_amended.1 sampleHashes permFS ["/p", "/q"] 0
      [(1, some "y"), (0, some "x")] (by decide),
   c2_amended.2 sampleHashes c6FS
      (by intro a ha b hb h; fin_cases ha <;> fin_cases hb <;> simp_all [sampleHashes])
      false "/root" (some c6Tree)
      ⟨3, 30, [["/root/a.txt", "/root/b.txt"]], 0, 10⟩ rfl
      ["/root/a.txt", "/root/b.txt"] (by decide)⟩

/-- C3 counterexample: scanning a root that does not exist (os.walk yields
nothing) returns a normal, successful empty ScanResult; no InvalidRootError
or any other exception is raised, contradicting the claim that such a scan
fails fatally rather than silently returning a zero result. -/
theorem c3_counterexample :
    scan_folder sampleHashes false cFalse (constW []) "/missing" none =
      Except.ok ⟨0, 0, [], 0, 0⟩ := rfl

/-- C3 (amended): for every hash model, pre-set flag value, cancellation
trace and world, scan_folder on a missing or non-directory root returns the
successful empty result ScanResult(0, 0, [], 0) and never raises; the code
contains no InvalidRootError and performs no root validation. -/
theorem c3_amended (H : Hashes) (pre : Bool) (c : CancelTrace) (w : World)
    (rootPath : String) :
    scan_folder H pre c w rootPath none = Except.ok ⟨0, 0, [], 0, 0⟩ := by
  unfold scan_folder discover_files
  by_cases h1 : c 0 <;>
    simp [h1, hash_files, group_by_size, crc_pass, submit_loop, collect_loop,
      sum_sizes, space_calc]

/-- C5 counterexample: with the cancellation flag already set when
scan_folder is invoked (preCancelled = true) and no further cancel request,
the scan of a one-file tree runs to completion and reports 1 file, not the
claimed zero-file, zero-duplicate result: line 220 resets the flag. -/
theorem c5_counterexample :
    scan_folder sampleHashes true cFalse (constW oneFS) "/r" (some oneTree) =
      Except.ok ⟨1, 5, [], 0, 0⟩ := rfl

/-- C5 (amended): scan_folder resets the shared flag at entry (line 220),
so a flag set before invocation is discarded: the result is independent of
the pre-set flag value, and when no cancel request arrives after the reset
the scan runs fully (here returning its complete one-file result) instead
of the zero result the claim predicts. -/
theorem c5_amended :
    (∀ (H : Hashes) (p1 p2 : Bool) (c : CancelTrace) (w : World)
      (rootPath : String) (root : Option DTree),
        scan_folder H p1 c w rootPath root = scan_folder H p2 c w rootPath root) ∧
    scan_folder sampleHashes true cFalse (constW oneFS) "/r" (some oneTree) =
      Except.ok ⟨1, 5, [], 0, 0⟩ := by
  constructor
  · intro H p1 p2 c w rootPath root
    rfl
  · rfl

/-- C4 (code bug evidence): discovery of the one-file tree succeeds and,
with an unchanged file system, the scan completes (third conjunct); but if
that same file can no longer be stated when the final statistics pass of
scan_folder reaches it, the unguarded os.path.getsize at line 241 raises
and the exception propagates out of scan_folder (re-raised by line 260),
instead of excluding the one file — contradicting the claim that per-file
stat failures after discovery are always absorbed. -/
theorem c4_stats_stat_failure_raises :
    scanFiles cFalse vanishW "/r" (some oneTree) = ["/r/a.txt"] ∧
    scan_folder sampleHashes false cFalse vanishW "/r" (some oneTree) =
      Except.error "OSError" ∧
    scan_folder sampleHashes false cFalse (constW oneFS) "/r" (some oneTree) =
      Except.ok ⟨1, 5, [], 0, 0⟩ :=
  ⟨rfl, rfl, rfl⟩

/-- The while-loop of find_dest: starting the search at index n0, if every
candidate from n0 up to (but excluding) n is occupied and candidate n is
free, the loop stops exactly at candidate n (fuel permitting). -/
theorem find_dest_loop_eq (occ : List String) (dst name sfx : String) :
    ∀ (fuel n0 n : Nat), n0 ≤ n → n - n0 < fuel →
    (∀ m, n0 ≤ m → m < n → gen_name dst name sfx m ∈ occ) →
    gen_name dst name sfx n ∉ occ →
    find_dest_loop occ dst name sfx n0 fuel = gen_name dst name sfx n := by
  intro fuel
  induction fuel with
  | zero => intro n0 n h1 h2 _ _; omega
  | succ f ih =>
    intro n0 n h1 h2 hall hfree
    by_cases heq : n0 = n
    · subst heq
      simp only [find_dest_loop]
      rw [if_neg hfree]
    · have hlt : n0 < n := lt_of_le_of_ne h1 heq
      have hmem : gen_name dst name sfx n0 ∈ occ := hall n0 le_rfl hlt
      simp only [find_dest_loop]
      rw [if_pos hmem]
      exact ih (n0 + 1) n hlt (by omega) (fun m hm1 hm2 => hall m (by omega) hm2) hfree

/-- The duplicate groups of the C6 fixture: whatever the CRC32 values do
(collide or not), as long as the digest separates "hello" from "world" and
is truthy on "hello", the only group is [a.txt, b.txt]. -/
theorem c6_expected (H : Hashes) (hne : H.md5 "hello" ≠ "")
    (hnw : H.md5 "hello" ≠ H.md5 "world") :
    dupsOf H c6FS ["/root/a.txt", "/root/b.txt", "/root/c.txt"] =
      [["/root/a.txt", "/root/b.txt"]] := by
  have hsg : sizeGroupsOf c6FS ["/root/a.txt", "/root/b.txt", "/root/c.txt"] =
      [(10, ["/root/a.txt", "/root/b.txt", "/root/c.txt"])] := rfl
  have hpp : promotedPairs
      [(10, ["/root/a.txt", "/root/b.txt", "/root/c.txt"])] =
      [(10, "/root/a.txt"), (10, "/root/b.txt"), (10, "/root/c.txt")] := rfl
  have ka : crcKey H c6FS (10, "/root/a.txt") =
      some (10, H.crc32 "hello" % 4294967296) := rfl
  have kb : crcKey H c6FS (10, "/root/b.txt") =
      some (10, H.crc32 "hello" % 4294967296) := rfl
  have kc : crcKey H c6FS (10, "/root/c.txt") =
      some (10, H.crc32 "world" % 4294967296) := rfl
  have mha : md5_hash H c6FS "/root/a.txt" = some (H.md5 "hello") := rfl
  have mhb : md5_hash H c6FS "/root/b.txt" = some (H.md5 "hello") := rfl
  have mhc : md5_hash H c6FS "/root/c.txt" = some (H.md5 "world") := rfl
  have ma : md5Key H c6FS "/root/a.txt" = some (H.md5 "hello") := by
    unfold md5Key
    rw [mha]
    dsimp only
    rw [if_neg hne]
  have mb : md5Key H c6FS "/root/b.txt" = some (H.md5 "hello") := by
    unfold md5Key
    rw [mhb]
    dsimp only
    rw [if_neg hne]
  have hwh : ¬(H.md5 "world" = H.md5 "hello") := fun hh => hnw hh.symm
  by_cases hcw : H.crc32 "world" % 4294967296 = H.crc32 "hello" % 4294967296
  · have hcg : crcGroupsOf H c6FS
        ["/root/a.txt", "/root/b.txt", "/root/c.txt"] =
        [((10, H.crc32 "hello" % 4294967296),
          ["/root/a.txt", "/root/b.txt", "/root/c.txt"])] := by
      unfold crcGroupsOf
      rw [hsg, hpp]
      simp [groupFoldV, ka, kb, kc, upsert, hcw]
    have hsub : submissionsOf H c6FS
        ["/root/a.txt", "/root/b.txt", "/root/c.txt"] =
        ["/root/a.txt", "/root/b.txt", "/root/c.txt"] := by
      unfold submissionsOf
      rw [hcg]
      rfl
    unfold dupsOf md5GroupsOf
    rw [hsub]
    by_cases hwe : H.md5 "world" = ""
    · have mc : md5Key H c6FS "/root/c.txt" = none := by
        unfold md5Key
        rw [mhc]
        dsimp only
        rw [if_pos hwe]
      simp [groupFoldV, ma, mb, mc, upsert]
    · have mc : md5Key H c6FS "/root/c.txt" = some (H.md5 "world") := by
        unfold md5Key
        rw [mhc]
        dsimp only
        rw [if_neg hwe]
      simp [groupFoldV, ma, mb, mc, upsert, hwh]
  · have hcg : crcGroupsOf H c6FS
        ["/root/a.txt", "/root/b.txt", "/root/c.txt"] =
        [((10, H.crc32 "hello" % 4294967296), ["/root/a.txt", "/root/b.txt"]),
         ((10, H.crc32 "world" % 4294967296), ["/root/c.txt"])] := by
      unfold crcGroupsOf
      rw [hsg, hpp]
      simp [groupFoldV, ka, kb, kc, upsert, hcw]
    have hsub : submissionsOf H c6FS
        ["/root/a.txt", "/root/b.txt", "/root/c.txt"] =
        ["/root/a.txt", "/root/b.txt"] := by
      unfold submissionsOf
      rw [hcg]
      rfl
    unfold dupsOf md5GroupsOf
    rw [hsub]
    simp [groupFoldV, ma, mb, upsert]

/-- C6: on the spec's scenario tree (a.txt and b.txt both 10 bytes with
content "hello", c.txt 10 bytes with content "world"), provided only that
the strong digest is truthy on "hello" and separates "hello" from "world",
scan_folder reports exactly one duplicate group [a.txt, b.txt] in discovery
order, counts 3 files and 30 bytes, leaves c.txt in no group, and reports
10 reclaimable bytes (the size of the non-index-0 member b.txt). -/
theorem c6_scenario (H : Hashes) (hne : H.md5 "hello" ≠ "")
    (hnw : H.md5 "hello" ≠ H.md5 "world") :
    scan_folder H false cFalse (constW c6FS) "/root" (some c6Tree) =
      Except.ok ⟨3, 30, [["/root/a.txt", "/root/b.txt"]], 0, 10⟩ := by
  have hdup := c6_expected H hne hnw
  unfold scan_folder
  simp only [cFalse, Bool.false_eq_true, if_false]
  rw [hash_files_cFalse]
  have hdisc : (discover_files cFalse (constW c6FS) "/root" (some c6Tree) 0).1 =
      ["/root/a.txt", "/root/b.txt", "/root/c.txt"] := rfl
  rw [hdisc]
  have hdup2 : ((md5GroupsOf H c6FS
      ["/root/a.txt", "/root/b.txt", "/root/c.txt"]).map
      (fun kv => kv.2)).filter (fun g => 1 < g.length) =
      [["/root/a.txt", "/root/b.txt"]] := hdup
  rw [hdup2]
  simp only [constW]
  have h30 : sum_sizes c6FS ["/root/a.txt", "/root/b.txt", "/root/c.txt"] =
      some 30 := rfl
  have h10 : space_calc c6FS [["/root/a.txt", "/root/b.txt"]] = some 10 := rfl
  rw [h30, h10]
  rfl

/-- C6 witness: the scenario theorem at concrete hashes (identity digest,
which is truthy on "hello" and separates the two contents). -/
theorem c6_witness :
    scan_folder sampleHashes false cFalse (constW c6FS) "/root" (some c6Tree) =
      Except.ok ⟨3, 30, [["/root/a.txt", "/root/b.txt"]], 0, 10⟩ :=
  c6_scenario sampleHashes (by decide) (by decide)

/-- C7: when the base name is already taken at the destination, find_dest
returns name_n-ext for the first free index n, starting at 1 and
incrementing (general clause); concretely, relocating two duplicates both
named photo.jpg into a destination already holding photo.jpg lands the
first at photo_1.jpg and the second at photo_2.jpg. -/
theorem c7_collision_naming :
    (∀ (occ : List String) (dst base : String) (n : Nat),
      (dst ++ "/" ++ base) ∈ occ →
      gen_name dst (splitext base).1 (splitext base).2 n ∉ occ →
      (∀ m, 1 ≤ m → m < n →
        gen_name dst (splitext base).1 (splitext base).2 m ∈ occ) →
      1 ≤ n → n ≤ occ.length + 1 →
      find_dest occ dst base = gen_name dst (splitext base).1 (splitext base).2 n) ∧
    (move_duplicates cFalse "/dest"
      [["/orig/photo.jpg", "/d1/photo.jpg", "/d2/photo.jpg"]] 0
      ⟨["/dest/photo.jpg"],
        [("/d1/photo.jpg", 7), ("/d2/photo.jpg", 7)], 0, 0, []⟩).1.moves =
      [("/d1/photo.jpg", "/dest/photo_1.jpg"),
       ("/d2/photo.jpg", "/dest/photo_2.jpg")] := by
  constructor
  · intro occ dst base n hbase hfree hall h1 hub
    unfold find_dest
    rw [if_pos hbase]
    exact find_dest_loop_eq occ dst (splitext base).1 (splitext base).2
      (occ.length + 1) 1 n h1 (by omega) (fun m hm1 hm2 => hall m hm1 hm2) hfree
  · rfl

/-- C7 witness: the general clause applied at the concrete single-collision
instance gives exactly photo_1.jpg. -/
theorem c7_witness :
    find_dest ["/dest/photo.jpg"] "/dest" "photo.jpg" = "/dest/photo_1.jpg" :=
  c7_collision_naming.1 ["/dest/photo.jpg"] "/dest" "photo.jpg" 1 (by decide)
    (by decide) (fun m hm1 hm2 => absurd hm2 (Nat.not_lt.mpr hm1))
    (by decide) (by decide)

/-- Erasing one key leaves every other key's lookup unchanged. -/
theorem sizeFind_eraseKey_ne (fs : List (Path × Nat)) (p q : Path) (h : p ≠ q) :
    sizeFind (eraseKey fs q) p = sizeFind fs p := by
  induction fs with
  | nil => rfl
  | cons e rest ih =>
    by_cases he : e.1 = q
    · simp only [eraseKey, if_pos he, sizeFind]
      rw [if_neg (by rw [he]; exact fun hh => h hh.symm)]
    · simp only [eraseKey, if_neg he, sizeFind]
      by_cases hp : e.1 = p
      · rw [if_pos hp, if_pos hp]
      · rw [if_neg hp, if_neg hp, ih]

/-- A key absent from the map looks up to none. -/
theorem sizeFind_eq_none (fs : List (Path × Nat)) (p : Path)
    (h : p ∉ fs.map Prod.fst) : sizeFind fs p = none := by
  induction fs with
  | nil => rfl
  | cons e rest ih =>
    simp only [List.map_cons, List.mem_cons] at h
    push_neg at h
    simp only [sizeFind]
    rw [if_neg (fun hh => h.1 hh.symm)]
    exact ih h.2

/-- With no duplicate keys, erasing a key removes it entirely. -/
theorem sizeFind_eraseKey_self (fs : List (Path × Nat)) (p : Path)
    (hnd : (fs.map Prod.fst).Nodup) : sizeFind (eraseKey fs p) p = none := by
  induction fs with
  | nil => rfl
  | cons e rest ih =>
    simp only [List.map_cons, List.nodup_cons] at hnd
    by_cases he : e.1 = p
    · simp only [eraseKey, if_pos he]
      exact sizeFind_eq_none rest p (by rw [← he]; exact hnd.1)
    · simp only [eraseKey, if_neg he, sizeFind, he, if_false]
      exact ih hnd.2


/-- Erasing a key only removes entries: the key list shrinks sublist-wise. -/
theorem eraseKey_keys_sublist (fs : List (Path × Nat)) (p : Path) :
    ((eraseKey fs p).map Prod.fst).Sublist (fs.map Prod.fst) := by
  induction fs with
  | nil => exact List.Sublist.refl _
  | cons e rest ih =>
    by_cases he : e.1 = p
    · simp only [eraseKey, if_pos he, List.map_cons]
      exact (List.Sublist.refl _).cons _
    · simp only [eraseKey, if_neg he, List.map_cons]
      exact ih.cons₂ _

/-- delete_tail only removes entries from the source view. -/
theorem delete_tail_keys_sublist (dups : List Path) :
    ∀ st : DeleteState,
      ((delete_tail st dups).fs.map Prod.fst).Sublist (st.fs.map Prod.fst) := by
  induction dups with
  | nil => intro st; exact List.Sublist.refl _
  | cons q rest ih =>
    intro st
    simp only [delete_tail]
    cases hq : sizeFind st.fs q with
    | none => exact ih st
    | some s => exact (ih _).trans (eraseKey_keys_sublist st.fs q)

/-- A path outside the processed tail is untouched by delete_tail. -/
theorem delete_tail_untouched (dups : List Path) :
    ∀ (st : DeleteState) (p : Path), p ∉ dups →
      sizeFind (delete_tail st dups).fs p = sizeFind st.fs p := by
  induction dups with
  | nil => intro st p _; rfl
  | cons q rest ih =>
    intro st p hp
    simp only [List.mem_cons] at hp
    push_neg at hp
    simp only [delete_tail]
    cases hq : sizeFind st.fs q with
    | none => exact ih st p hp.2
    | some s =>
      rw [ih _ p hp.2]
      exact sizeFind_eraseKey_ne st.fs p q hp.1

/-- Every path of the processed tail is gone after delete_tail (an absent
path simply stays absent). -/
theorem delete_tail_deleted (dups : List Path) :
    ∀ st : DeleteState, (st.fs.map Prod.fst).Nodup →
      ∀ p ∈ dups, sizeFind (delete_tail st dups).fs p = none := by
  induction dups with
  | nil => intro st _ p hp; cases hp
  | cons q rest ih =>
    intro st hnd p hp
    simp only [delete_tail]
    rcases List.mem_cons.mp hp with hpq | hpr
    · subst hpq
      cases hq : sizeFind st.fs p with
      | none =>
        by_cases hmem : p ∈ rest
        · exact ih st hnd p hmem
        · rw [delete_tail_untouched rest st p hmem]; exact hq
      | some s =>
        by_cases hmem : p ∈ rest
        · exact ih _ ((eraseKey_keys_sublist st.fs p).nodup hnd) p hmem
        · rw [delete_tail_untouched rest _ p hmem]
          exact sizeFind_eraseKey_self st.fs p hnd
    · cases hq : sizeFind st.fs q with
      | none => exact ih st hnd p hpr
      | some s => exact ih _ ((eraseKey_keys_sublist st.fs q).nodup hnd) p hpr

/-- delete_tail totals: with no duplicate paths in the tail and no
duplicate keys in the view, the deleted byte total grows by exactly the sum
of the sizes of the tail paths present at entry (absent ones add 0), and
the count by the number present. -/
theorem delete_tail_totals (dups : List Path) :
    ∀ st : DeleteState, (st.fs.map Prod.fst).Nodup → dups.Nodup →
      (delete_tail st dups).deleted_size =
        st.deleted_size + (dups.map (fun p => (sizeFind st.fs p).getD 0)).sum ∧
      (delete_tail st dups).deleted_count =
        st.deleted_count + (dups.filter (fun p => (sizeFind st.fs p).isSome)).length := by
  induction dups with
  | nil => intro st _ _; simp [delete_tail]
  | cons q rest ih =>
    intro st hnd hdnd
    simp only [List.nodup_cons] at hdnd
    simp only [delete_tail, List.map_cons, List.sum_cons, List.filter_cons]
    cases hq : sizeFind st.fs q with
    | none =>
      have := ih st hnd hdnd.2
      simp only [hq, Option.getD_none, Option.isSome_none, Bool.false_eq_true,
        if_false, cond_false]
      omega
    | some s =>
      have hnd2 : ((eraseKey st.fs q).map Prod.fst).Nodup :=
        (eraseKey_keys_sublist st.fs q).nodup hnd
      have := ih ⟨eraseKey st.fs q, st.deleted_count + 1, st.deleted_size + s⟩ hnd2 hdnd.2
      have hmap : rest.map (fun p => (sizeFind (eraseKey st.fs q) p).getD 0) =
          rest.map (fun p => (sizeFind st.fs p).getD 0) :=
        List.map_congr_left (fun p hp => by
          rw [sizeFind_eraseKey_ne st.fs p q (fun hh => hdnd.1 (hh ▸ hp))])
      have hfil : rest.filter (fun p => (sizeFind (eraseKey st.fs q) p).isSome) =
          rest.filter (fun p => (sizeFind st.fs p).isSome) :=
        List.filter_congr (fun p hp => by
          rw [sizeFind_eraseKey_ne st.fs p q (fun hh => hdnd.1 (hh ▸ hp))])
      simp only [hmap, hfil] at this
      simp only [hq, Option.getD_some, Option.isSome_some, if_true, cond_true,
        List.length_cons]
      omega

/-- The tails (indices 1 and up) of the groups, joined, shrink sublist-wise
inside the joined groups. -/
theorem tails_join_sublist (groups : List (List Path)) :
    ((groups.map (fun g => g.drop 1)).flatten).Sublist groups.flatten := by
  induction groups with
  | nil => exact List.Sublist.refl _
  | cons g rest ih =>
    simp only [List.map_cons, List.flatten_cons]
    exact (List.drop_sublist 1 g).append ih

/-- The head of a member group never occurs in any group's tail, when the
joined groups hold no duplicate path. -/
theorem mem_head_not_mem_tails (groups : List (List Path)) :
    ∀ (g : List Path) (p : Path), groups.flatten.Nodup → g ∈ groups →
      g.head? = some p → p ∉ (groups.map (fun x => x.drop 1)).flatten := by
  induction groups with
  | nil => intro g p _ hg; cases hg
  | cons a rest ih =>
    intro g p hnd hg hhead
    simp only [List.flatten_cons, List.nodup_append] at hnd
    simp only [List.map_cons, List.flatten_cons, List.mem_append]
    push_neg
    rcases List.mem_cons.mp hg with hga | hgr
    · subst hga
      cases g with
      | nil => cases hhead
      | cons x t =>
        have hx : x = p := by simpa using hhead
        constructor
        · simp only [List.drop_one, List.tail_cons]
          intro hpt
          have hnda := hnd.1
          simp only [List.nodup_cons] at hnda
          exact hnda.1 (by rw [hx]; exact hpt)
        · intro hmem
          exact hnd.2.2 (by rw [← hx]; exact List.mem_cons_self x t)
            ((tails_join_sublist rest).subset hmem)
    · constructor
      · intro hmem
        have hpj : p ∈ rest.flatten :=
          List.mem_flatten.mpr ⟨g, hgr, List.mem_of_mem_head? hhead⟩
        exact hnd.2.2 ((List.drop_sublist 1 a).subset hmem) hpj
      · exact ih g p hnd.2.1 hgr hhead

/-- A path outside every group tail is untouched by delete_duplicates, for
every cancellation trace. -/
theorem delete_dups_untouched (groups : List (List Path)) :
    ∀ (c : CancelTrace) (k : Nat) (st : DeleteState) (p : Path),
      p ∉ (groups.map (fun g => g.drop 1)).flatten →
      sizeFind ((delete_duplicates c groups k st).1).fs p = sizeFind st.fs p := by
  induction groups with
  | nil => intro c k st p _; rfl
  | cons g rest ih =>
    intro c k st p hp
    simp only [List.map_cons, List.flatten_cons, List.mem_append] at hp
    push_neg at hp
    simp only [delete_duplicates]
    by_cases hc : c k
    · rw [if_pos hc]
    · rw [if_neg hc]
      rw [ih c (k + 1) _ p hp.2]
      exact delete_tail_untouched (g.drop 1) st p hp.1

/-- delete_duplicates only removes entries from the source view. -/
theorem delete_dups_keys_sublist (groups : List (List Path)) :
    ∀ (c : CancelTrace) (k : Nat) (st : DeleteState),
      (((delete_duplicates c groups k st).1).fs.map Prod.fst).Sublist
        (st.fs.map Prod.fst) := by
  induction groups with
  | nil => intro c k st; exact List.Sublist.refl _
  | cons g rest ih =>
    intro c k st
    simp only [delete_duplicates]
    by_cases hc : c k
    · rw [if_pos hc]
    · rw [if_neg hc]
      exact (ih c (k + 1) _).trans (delete_tail_keys_sublist (g.drop 1) st)

/-- In an uncancelled run every tail member of every group is gone
afterwards. -/
theorem delete_dups_deleted (groups : List (List Path)) :
    ∀ (k : Nat) (st : DeleteState), (st.fs.map Prod.fst).Nodup →
      ((groups.map (fun g => g.drop 1)).flatten).Nodup →
      ∀ g ∈ groups, ∀ p ∈ g.drop 1,
        sizeFind ((delete_duplicates cFalse groups k st).1).fs p = none := by
  induction groups with
  | nil => intro k st _ _ g hg; cases hg
  | cons a rest ih =>
    intro k st hnd hjnd g hg p hp
    simp only [List.map_cons, List.flatten_cons, List.nodup_append] at hjnd
    simp only [delete_duplicates, cFalse, Bool.false_eq_true, if_false]
    rcases List.mem_cons.mp hg with hga | hgr
    · subst hga
      have h1 : sizeFind (delete_tail st (g.drop 1)).fs p = none :=
        delete_tail_deleted (g.drop 1) st hnd p hp
      have h2 : p ∉ (rest.map (fun x => x.drop 1)).flatten :=
        fun hmem => hjnd.2.2 hp hmem
      rw [delete_dups_untouched rest cFalse (k + 1) _ p h2]
      exact h1
    · exact ih (k + 1) _ ((delete_tail_keys_sublist (a.drop 1) st).nodup hnd)
        hjnd.2.1 g hgr p hp

/-- In an uncancelled run the returned byte total is the sum, over all
group-tail paths, of the sizes present at entry (absent paths add 0). -/
theorem delete_dups_totals (groups : List (List Path)) :
    ∀ (k : Nat) (st : DeleteState), (st.fs.map Prod.fst).Nodup →
      ((groups.map (fun g => g.drop 1)).flatten).Nodup →
      (delete_duplicates cFalse groups k st).1.deleted_size =
        st.deleted_size + (((groups.map (fun g => g.drop 1)).flatten).map
          (fun p => (sizeFind st.fs p).getD 0)).sum := by
  induction groups with
  | nil => intro k st _ _; simp [delete_duplicates]
  | cons a rest ih =>
    intro k st hnd hjnd
    simp only [List.map_cons, List.flatten_cons, List.nodup_append] at hjnd
    simp only [delete_duplicates, cFalse, Bool.false_eq_true, if_false,
      List.map_cons, List.flatten_cons, List.map_append, List.sum_append]
    have htail := delete_tail_totals (a.drop 1) st hnd hjnd.1
    have hnd2 : ((delete_tail st (a.drop 1)).fs.map Prod.fst).Nodup :=
      (delete_tail_keys_sublist (a.drop 1) st).nodup hnd
    have hrec := ih (k + 1) (delete_tail st (a.drop 1)) hnd2 hjnd.2.1
    have hmap : ((rest.map (fun g => g.drop 1)).flatten).map
        (fun p => (sizeFind (delete_tail st (a.drop 1)).fs p).getD 0) =
        ((rest.map (fun g => g.drop 1)).flatten).map
        (fun p => (sizeFind st.fs p).getD 0) :=
      List.map_congr_left (fun p hp => by
        rw [delete_tail_untouched (a.drop 1) st p (fun hmem => hjnd.2.2 hmem hp)])
    rw [hrec, hmap, htail.1]
    omega

/-- C8: delete_duplicates touches only indices 1..N-1 (every path outside
the group tails, in particular index 0 of each group, keeps its exact
entry, under any cancellation trace); after an uncancelled run on groups
with no repeated path, every group's index-0 file that existed still
exists, every tail member is gone, and the returned byte total equals the
sum of the sizes of the files actually deleted — the tail paths present at
entry — even when some tail paths were already missing. -/
theorem c8_delete_spec (groups : List (List Path)) (fs : List (Path × Nat))
    (k : Nat) (hfs : (fs.map Prod.fst).Nodup) (hnd : groups.flatten.Nodup) :
    (∀ (c : CancelTrace) (p : Path), p ∉ (groups.map (fun g => g.drop 1)).flatten →
      sizeFind ((delete_duplicates c groups k ⟨fs, 0, 0⟩).1).fs p = sizeFind fs p) ∧
    (∀ g ∈ groups, ∀ p, g.head? = some p →
      sizeFind ((delete_duplicates cFalse groups k ⟨fs, 0, 0⟩).1).fs p = sizeFind fs p) ∧
    (∀ g ∈ groups, ∀ p ∈ g.drop 1,
      sizeFind ((delete_duplicates cFalse groups k ⟨fs, 0, 0⟩).1).fs p = none) ∧
    (delete_duplicates cFalse groups k ⟨fs, 0, 0⟩).1.deleted_size =
      (((groups.map (fun g => g.drop 1)).flatten).map
        (fun p => (sizeFind fs p).getD 0)).sum := by
  have hjnd : ((groups.map (fun g => g.drop 1)).flatten).Nodup :=
    (tails_join_sublist groups).nodup hnd
  refine ⟨?_, ?_, ?_, ?_⟩
  · intro c p hp
    exact delete_dups_untouched groups c k ⟨fs, 0, 0⟩ p hp
  · intro g hg p hhead
    exact delete_dups_untouched groups cFalse k ⟨fs, 0, 0⟩ p
      (mem_head_not_mem_tails groups g p hnd hg hhead)
  · intro g hg p hp
    exact delete_dups_deleted groups k ⟨fs, 0, 0⟩ hfs hjnd g hg p hp
  · have := delete_dups_totals groups k ⟨fs, 0, 0⟩ hfs hjnd
    simpa using this

/-- C8 witness: deleting on two concrete disjoint groups removes exactly
the tail files and reports their byte sum. -/
theorem c8_witness :
    (delete_duplicates cFalse [["/a", "/b", "/c"], ["/d", "/e"]] 0
      ⟨[("/a", 1), ("/b", 2), ("/c", 3), ("/d", 4), ("/e", 5)], 0, 0⟩).1.deleted_size =
      ((([["/a", "/b", "/c"], ["/d", "/e"]].map (fun g => g.drop 1)).flatten).map
        (fun p => (sizeFind [("/a", 1), ("/b", 2), ("/c", 3), ("/d", 4), ("/e", 5)] p).getD 0)).sum :=
  (c8_delete_spec [["/a", "/b", "/c"], ["/d", "/e"]]
    [("/a", 1), ("/b", 2), ("/c", 3), ("/d", 4), ("/e", 5)] 0
    (by decide) (by decide)).2.2.2

/-- C9: for every root directory whose own base name is in the fixed
skip-folder set, discover_files returns the empty list, for every
cancellation trace, world and start clock: the skip check applies to the
scan root itself. -/
theorem c9_root_skipped (c : CancelTrace) (w : World) (rootPath : String)
    (t : DTree) (k : Nat) (h : osBasename rootPath ∈ skip_folders) :
    (discover_files c w rootPath (some t) k).1 = [] := by
  cases t with
  | node fs subs =>
    have hskip : should_skip_folder rootPath = true := by
      simp [should_skip_folder, h]
    unfold discover_files walkPrunedAt
    rw [hskip]
    simp only [if_true]
    unfold discTriples
    by_cases h1 : c k <;> simp [h1, hskip, discTriples]

/-- C9 witness: a scan rooted directly at a folder named AppData discovers
nothing even though the folder contains a valid file. -/
theorem c9_witness :
    osBasename "/C/AppData" ∈ skip_folders ∧
    (discover_files cFalse (constW [("/C/AppData/x.txt", ⟨1, "x"⟩)])
      "/C/AppData" (some (DTree.node ["x.txt"] [])) 0).1 = [] :=
  ⟨by decide, c9_root_skipped cFalse (constW [("/C/AppData/x.txt", ⟨1, "x"⟩)])
    "/C/AppData" (DTree.node ["x.txt"] []) 0 (by decide)⟩

/-- C10: whenever scan_folder observes the cancellation flag set at the
post-discovery checkpoint (line 227), or unset there but set at the
post-hashing checkpoint (line 233), it returns exactly
ScanResult(total_files = 0, total_size = 0, duplicates = [], scan_time = 0)
without raising, discarding all partially collected results. -/
theorem c10_checkpoint_zero (H : Hashes) (pre : Bool) (c : CancelTrace)
    (w : World) (rootPath : String) (root : Option DTree)
    (h : c (scanK1 c w rootPath root) = true ∨
      (c (scanK1 c w rootPath root) = false ∧
        c (scanK2 H c w rootPath root) = true)) :
    scan_folder H pre c w rootPath root = Except.ok ⟨0, 0, [], 0, 0⟩ := by
  simp only [scanK1, scanK2, scanFiles] at h
  unfold scan_folder
  rcases h with h1 | ⟨h1, h2⟩
  · simp [h1]
  · simp [h1, h2]

/-- C10 witness: a cancel request that lands right after discovery of a
one-file tree yields the exact zero result. -/
theorem c10_witness :
    scan_folder sampleHashes false (fun _ => true) (constW oneFS) "/r"
      (some oneTree) = Except.ok ⟨0, 0, [], 0, 0⟩ :=
  c10_checkpoint_zero sampleHashes false (fun _ => true) (constW oneFS) "/r"
    (some oneTree) (Or.inl rfl)

end ZC
